import Mathlib

/-!
Verification of the directory-reconciliation engine of `sync_folders.py`
(`.github/scripts/sync_folders.py`).

Shallow embedding conventions:

* An image file's decoded content is a value of `Image` (width, height, RGB
  pixels).  The perceptual hash of the external `imagehash` library is kept
  abstract: it is a parameter `phash : Image → PHash` of `OracleParams`,
  together with the two module-level ignore fractions (which `main` threads
  from the command line into the globals `TOP_IGNORE_PCT` / `LEFT_IGNORE_PCT`).
  Python float arithmetic in the mask-bound computations is modelled by exact
  rational arithmetic with `int(x)` as the floor (the values involved are
  nonnegative); none of the verified claims depends on the exact bounds.
* The filesystem is the pair of the two root directories' listings.  A
  directory listing is an association list from entry name to node (regular
  file with content, or subdirectory with its own listing).  A real filesystem
  never holds two entries of the same name in one directory; theorems assume
  this (`nodupKeys`) where it matters.  Python dicts built from a listing
  keep the last binding of a duplicated name while `List.lookup` takes the
  first; under `nodupKeys` the two coincide.
* Paths are `Side × name` (a direct child of one of the two roots) and
  `Side × locale × filename`, which covers every path the script touches.
* `shutil.copy2 src dst` with `dst` an existing directory copies the source
  file *into* that directory under the source's basename; otherwise it
  creates or overwrites the regular file at `dst`.  `copy2Into` models both
  branches.  The `dst.parent.mkdir(parents=True, exist_ok=True)` in
  `copy_file` creates the missing parent; if the parent existed as a regular
  file the real call would raise `FileExistsError` — that branch is
  unreachable from the script's call sites (the parent is always an
  enumerated or just-created directory) and is modelled as a no-op.
* `Path.unlink` raises `FileNotFoundError` when the path is absent
  (`unlinkE` returns `.error ()`), which `remove_file` catches.
-/

namespace Sync

/-- An RGB pixel value. -/
abbrev RGB := Nat × Nat × Nat

/-- A decoded raster image: pixel dimensions and pixel data
(already in the fixed 3-channel representation of `convert("RGB")`). -/
structure Image where
  w : Nat
  h : Nat
  pix : Nat → Nat → RGB

/-- A perceptual hash value: the fixed 64-bit fingerprint computed by
`imagehash.phash` with its default parameters. -/
abbrev PHash := Fin 64 → Bool

/-- The Hamming distance between two hashes: the number of differing bits.
`imagehash.ImageHash.__sub__` returns exactly this count. -/
def hammingDist (a b : PHash) : Nat :=
  (Finset.univ.filter (fun i => a i ≠ b i)).card

/-- The external ingredients of the equivalence oracle: the perceptual-hash
function of the `imagehash` library (abstract) and the two ignore fractions
(the module globals `TOP_IGNORE_PCT = 0.06` and `LEFT_IGNORE_PCT = 0.26`,
overridable from the command line). -/
structure OracleParams where
  phash : Image → PHash
  topIgnorePct : ℚ
  leftIgnorePct : ℚ

/-- Python `int(q)` for the nonnegative quantities appearing in the mask
bounds (truncation toward zero = floor on nonnegative input). -/
def pyInt (q : ℚ) : Nat := (⌊q⌋).toNat

/-- `PIL.Image.paste(color, (x0, y0, x1, y1))`: overwrite the rectangle
`x0 ≤ x < x1`, `y0 ≤ y < y1` with the fixed color `c`.  (PIL clips the box to
the image bounds; pixels outside `w × h` are not part of the image, so
clipping is immaterial here.) -/
def Image.paste (im : Image) (c : RGB) (x0 y0 x1 y1 : Nat) : Image :=
  { im with pix := fun x y => if x0 ≤ x ∧ x < x1 ∧ y0 ≤ y ∧ y < y1 then c else im.pix x y }

/-- The inner `masked_phash` helper of `same_except_time`: mask the top-left
rectangle from `(int(w*0.1), int(h*0.02))` to `(left, top)` with black, then
hash the masked image. -/
def masked_phash (P : OracleParams) (im : Image) : PHash :=
  let top := pyInt ((im.h : ℚ) * P.topIgnorePct)
  let left := pyInt ((im.w : ℚ) * P.leftIgnorePct)
  P.phash (im.paste (0, 0, 0) (pyInt ((im.w : ℚ) * (1 / 10))) (pyInt ((im.h : ℚ) * (2 / 100))) left top)

/-- `same_except_time(old_png, new_png)`: `False` outright when the pixel
dimensions differ, otherwise `True` iff the Hamming distance between the two
independently masked perceptual hashes is exactly zero. -/
def same_except_time (P : OracleParams) (a b : Image) : Bool :=
  if (a.w, a.h) ≠ (b.w, b.h) then false
  else hammingDist (masked_phash P a) (masked_phash P b) == 0

/-- A filesystem node: a regular file with its content, or a directory with
its listing. -/
inductive FSNode : Type where
  | file (content : Image) : FSNode
  | dir (children : List (String × FSNode)) : FSNode

/-- A directory listing: entry name to node. -/
abbrev Entries := List (String × FSNode)

/-- Look up a name in a listing (first binding). -/
def lookupE : Entries → String → Option FSNode
  | [], _ => none
  | e :: es, n => if e.1 = n then some e.2 else lookupE es n

/-- Bind a name in a listing: replace the first binding, or append. -/
def setE (n : String) (v : FSNode) : Entries → Entries
  | [] => [(n, v)]
  | e :: es => if e.1 = n then (n, v) :: es else e :: setE n v es

/-- Drop the first binding of a name from a listing. -/
def eraseE (n : String) : Entries → Entries
  | [] => []
  | e :: es => if e.1 = n then es else e :: eraseE n es

/-- Which of the two trees a path lives in. -/
inductive Side : Type where
  | old : Side
  | new : Side
deriving DecidableEq

/-- A direct child of one of the two roots (a locale folder candidate). -/
structure DirPath where
  side : Side
  name : String

/-- A direct child of a locale folder (an image file candidate). -/
structure FPath where
  dir : DirPath
  name : String

/-- The filesystem state: the listings of the two root directories.  `main`
checks that both roots exist before calling `sync_all`. -/
structure FS where
  oldRoot : Entries
  newRoot : Entries

/-- The listing of one root. -/
def FS.root (fs : FS) : Side → Entries
  | .old => fs.oldRoot
  | .new => fs.newRoot

/-- Replace the listing of one root. -/
def FS.setRoot (fs : FS) : Side → Entries → FS
  | .old, es => { fs with oldRoot := es }
  | .new, es => { fs with newRoot := es }

/-- The listing of the directory at `p`, if `p` names a directory. -/
def FS.dirAt (fs : FS) (p : DirPath) : Option Entries :=
  match lookupE (fs.root p.side) p.name with
  | some (.dir cs) => some cs
  | _ => none

/-- `Path.exists()` for a root child. -/
def pathExistsD (fs : FS) (p : DirPath) : Bool :=
  (lookupE (fs.root p.side) p.name).isSome

/-- `is_hidden_path`: the entry name starts with a dot. -/
def is_hidden_path (name : String) : Bool := name.toList.head? == some '.'

/-- `str.lower()` for the ASCII extension strings this script compares
(`Char.toLower` agrees with Python's `str.lower` on ASCII). -/
def pyLower (s : String) : String := String.mk (s.toList.map Char.toLower)

/-- `pathlib.PurePath.suffix`: the substring from the last dot, provided that
dot is neither the first nor the last character; otherwise the empty
string. -/
def pySuffix (name : String) : String :=
  let cs := name.toList
  match ((List.range cs.length).filter (fun i => cs.getD i ' ' = '.')).getLast? with
  | some i => if 0 < i ∧ i + 1 < cs.length then String.mk (cs.drop i) else ""
  | none => ""

/-- Ordering of listing entries by name, as in `sorted(..., key=lambda x: x.name)`. -/
def nameLe {α : Type} (a b : String × α) : Prop := a.1 ≤ b.1

instance {α : Type} : DecidableRel (@nameLe α) := fun a b => inferInstanceAs (Decidable (a.1 ≤ b.1))

instance {α : Type} : IsTotal (String × α) nameLe := ⟨fun a b => le_total a.1 b.1⟩

instance {α : Type} : IsTrans (String × α) nameLe := ⟨fun _ _ _ h1 h2 => le_trans h1 h2⟩

/-- `sorted(entries, key=lambda x: x.name)`. -/
def sortByName {α : Type} (l : List (String × α)) : List (String × α) := l.insertionSort nameLe

/-- `iter_locale_dirs(root)`: `[]` when the root does not exist, else the
non-hidden direct child directories with their listings, sorted by name. -/
def iter_locale_dirs (root : Option Entries) : List (String × Entries) :=
  match root with
  | none => []
  | some es => sortByName (es.filterMap (fun e =>
      match e.2 with
      | .dir cs => if is_hidden_path e.1 then none else some (e.1, cs)
      | .file _ => none))

/-- `iter_png_files(folder)`: `[]` when the folder does not exist, else the
non-hidden direct child regular files whose suffix lowercases to ".png",
with their contents, sorted by name. -/
def iter_png_files (folder : Option Entries) : List (String × Image) :=
  match folder with
  | none => []
  | some es => sortByName (es.filterMap (fun e =>
      match e.2 with
      | .file c =>
          if !is_hidden_path e.1 && (pyLower (pySuffix e.1) == ".png") then some (e.1, c) else none
      | .dir _ => none))

/-- The per-locale statistics record (dataclass `LocaleStats`). -/
structure LocaleStats where
  locale : String
  changed : Nat := 0
  added : Nat := 0
  removed : Nat := 0
  removed_files : List String := []
  missing_in_new : Bool := false
deriving DecidableEq

/-- The aggregated totals record (dataclass `Totals`). -/
structure Totals where
  changed : Nat := 0
  added : Nat := 0
  removed : Nat := 0
deriving DecidableEq

/-- `shutil.copy2 src dst` restricted to one listing: when `dst` names an
existing directory the source file lands inside it under the source's
basename, otherwise the binding at `dst` is created or overwritten with the
file. -/
def copy2Into (es : Entries) (dstName srcName : String) (c : Image) : Entries :=
  match lookupE es dstName with
  | some (.dir cs) => setE dstName (.dir (setE srcName (.file c) cs)) es
  | _ => setE dstName (.file c) es

/-- `copy_file(src, dst)`: ensure the parent directory exists
(`mkdir(parents=True, exist_ok=True)`), then `shutil.copy2`.  `srcName` is
the source file's basename and `c` its content at copy time. -/
def copy_file (fs : FS) (srcName : String) (c : Image) (dst : FPath) : FS :=
  match lookupE (fs.root dst.dir.side) dst.dir.name with
  | some (.dir cs) =>
      fs.setRoot dst.dir.side
        (setE dst.dir.name (.dir (copy2Into cs dst.name srcName c)) (fs.root dst.dir.side))
  | none =>
      fs.setRoot dst.dir.side
        (setE dst.dir.name (.dir (copy2Into [] dst.name srcName c)) (fs.root dst.dir.side))
  | some (.file _) => fs

/-- `Path.unlink`: remove the binding, or `FileNotFoundError` when the path
is absent. -/
def unlinkE (fs : FS) (p : FPath) : Except Unit FS :=
  match fs.dirAt p.dir with
  | none => .error ()
  | some cs =>
    match lookupE cs p.name with
    | none => .error ()
    | some _ =>
        .ok (fs.setRoot p.dir.side (setE p.dir.name (.dir (eraseE p.name cs)) (fs.root p.dir.side)))

/-- `remove_file(p)`: `p.unlink()` with `FileNotFoundError` silently
swallowed. -/
def remove_file (fs : FS) (p : FPath) : FS :=
  match unlinkE fs p with
  | .ok fs' => fs'
  | .error _ => fs

/-- `sorted(...)` on a list of names. -/
def sortStrs (l : List String) : List String := l.insertionSort (fun a b => a ≤ b)

/-- `sorted(set(a) & set(b))` on name lists. -/
def pySortedSetInter (a b : List String) : List String :=
  sortStrs ((a.filter (fun x => decide (x ∈ b))).dedup)

/-- `sorted(set(a) - set(b))` on name lists. -/
def pySortedSetDiff (a b : List String) : List String :=
  sortStrs ((a.filter (fun x => !decide (x ∈ b))).dedup)

/-- One iteration of the first `sync_locale` loop (names present on both
sides): compare the two files and, when they differ, copy the new file over
the old file's path and bump `changed`.  The snapshot maps `old_files` /
`new_files` carry the contents the loop body reads: within one
`sync_locale` run no file is written or removed before the iteration that
reads it, so the snapshot equals the on-disk content at read time. -/
def changedStep (P : OracleParams) (old_loc : DirPath)
    (old_files new_files : List (String × Image)) (acc : LocaleStats × FS) (name : String) :
    LocaleStats × FS :=
  match List.lookup name old_files, List.lookup name new_files with
  | some oc, some nc =>
      if same_except_time P oc nc then acc
      else ({ acc.1 with changed := acc.1.changed + 1 }, copy_file acc.2 name nc ⟨old_loc, name⟩)
  | _, _ => acc

/-- One iteration of the second `sync_locale` loop (names only in OLD):
remove the old file, bump `removed`, and record `"locale/name"`. -/
def removedStep (old_loc : DirPath) (acc : LocaleStats × FS) (name : String) : LocaleStats × FS :=
  ({ acc.1 with
      removed := acc.1.removed + 1
      removed_files := acc.1.removed_files ++ [old_loc.name ++ "/" ++ name] },
    remove_file acc.2 ⟨old_loc, name⟩)

/-- One iteration of the third `sync_locale` loop (names only in NEW): copy
the new file into the old locale folder and bump `added`. -/
def addedStep (old_loc : DirPath) (new_files : List (String × Image))
    (acc : LocaleStats × FS) (name : String) : LocaleStats × FS :=
  match List.lookup name new_files with
  | some nc => ({ acc.1 with added := acc.1.added + 1 }, copy_file acc.2 name nc ⟨old_loc, name⟩)
  | none => acc

/-- `sync_locale(old_loc, new_loc)`.  A `new_loc` of `none` models both the
`None` argument and a nonexistent path (the source tests
`new_loc is None or not new_loc.exists()` — the second disjunct is the
`pathExistsD` test). -/
def sync_locale (P : OracleParams) (fs : FS) (old_loc : DirPath) (new_loc : Option DirPath) :
    LocaleStats × FS :=
  match new_loc with
  | none => ({ locale := old_loc.name, missing_in_new := true }, fs)
  | some nl =>
    if pathExistsD fs nl = false then ({ locale := old_loc.name, missing_in_new := true }, fs)
    else
      let old_files := iter_png_files (fs.dirAt old_loc)
      let new_files := iter_png_files (fs.dirAt nl)
      let oldKeys := old_files.map Prod.fst
      let newKeys := new_files.map Prod.fst
      let s1 := (pySortedSetInter oldKeys newKeys).foldl
        (changedStep P old_loc old_files new_files) ({ locale := old_loc.name }, fs)
      let s2 := (pySortedSetDiff oldKeys newKeys).foldl (removedStep old_loc) s1
      (pySortedSetDiff newKeys oldKeys).foldl (addedStep old_loc new_files) s2

/-- The running state of `sync_all`: the filesystem plus the accumulating
report (`stats_list`, `totals`, `warnings`). -/
structure SyncAcc where
  fs : FS
  stats_list : List LocaleStats := []
  totals : Totals := {}
  warnings : List String := []

/-- One iteration of the first `sync_all` loop (locales existing in OLD):
run `sync_locale`, append its stats, accumulate totals, and warn when the
locale is missing from NEW. -/
def locStep (P : OracleParams) (newLocaleKeys : List String) (acc : SyncAcc) (locale : String) :
    SyncAcc :=
  let new_loc : Option DirPath :=
    if locale ∈ newLocaleKeys then some ⟨Side.new, locale⟩ else none
  let r := sync_locale P acc.fs ⟨Side.old, locale⟩ new_loc
  { fs := r.2,
    stats_list := acc.stats_list ++ [r.1],
    totals := { changed := acc.totals.changed + r.1.changed,
                added := acc.totals.added + r.1.added,
                removed := acc.totals.removed + r.1.removed },
    warnings := acc.warnings ++
      (if r.1.missing_in_new then ["Locale folder missing in NEW (kept as-is): " ++ locale]
       else []) }

/-- `Path.mkdir(parents=True, exist_ok=True)` for a root child: succeeds when
the path is an existing directory or absent; raises `FileExistsError`
(`none`) when a regular file occupies the name. -/
def mkdirP (fs : FS) (p : DirPath) : Option FS :=
  match lookupE (fs.root p.side) p.name with
  | some (.dir _) => some fs
  | some (.file _) => none
  | none => some (fs.setRoot p.side (setE p.name (.dir []) (fs.root p.side)))

/-- One iteration of the inner copy loop of the NEW-only branch. -/
def copyAllStep (locale : String) (acc : FS × Nat) (e : String × Image) : FS × Nat :=
  (copy_file acc.1 e.1 e.2 ⟨⟨Side.old, locale⟩, e.1⟩, acc.2 + 1)

/-- One iteration of the second `sync_all` loop (locales existing only in
NEW): create the old-side folder, copy every eligible image into it, and
record a stats entry whose `added` is the count copied.  The `Bool` is the
alive flag: `false` once `mkdir` has raised, after which no further work
happens (the exception propagates out of `sync_all`). -/
def newOnlyStep (acc : SyncAcc × Bool) (locale : String) : SyncAcc × Bool :=
  match acc.2 with
  | false => acc
  | true =>
    match mkdirP acc.1.fs ⟨Side.old, locale⟩ with
    | none => (acc.1, false)
    | some fs1 =>
      let r := (iter_png_files (fs1.dirAt ⟨Side.new, locale⟩)).foldl (copyAllStep locale) (fs1, 0)
      ({ fs := r.1,
         stats_list := acc.1.stats_list ++ [{ locale := locale, added := r.2 }],
         totals := { acc.1.totals with added := acc.1.totals.added + r.2 },
         warnings := acc.1.warnings }, true)

/-- `sync_all(old_root, new_root)`.  Returns the final state plus the alive
flag: `true` means the run completed and the accumulated
`(stats_list, totals, warnings)` is the function's return value; `false`
means a `FileExistsError` escaped from the NEW-only loop.  (The combined
`removed_list` the source builds just before returning is dead code there —
it is recomputed by `main` — and is not part of the result.) -/
def sync_all (P : OracleParams) (fs0 : FS) : SyncAcc × Bool :=
  let oldLocaleKeys := (iter_locale_dirs (some fs0.oldRoot)).map Prod.fst
  let newLocaleKeys := (iter_locale_dirs (some fs0.newRoot)).map Prod.fst
  let a1 := (sortStrs oldLocaleKeys.dedup).foldl (locStep P newLocaleKeys) { fs := fs0 }
  (pySortedSetDiff newLocaleKeys oldLocaleKeys).foldl newOnlyStep (a1, true)

/-! ### Listing-level lemmas -/

/-- The names bound in a listing. -/
def ekeys (es : Entries) : List String := es.map Prod.fst

/-- A well-formed directory listing binds each name at most once (always true
of a real directory). -/
def nodupKeys (es : Entries) : Prop := (ekeys es).Nodup

instance (es : Entries) : Decidable (nodupKeys es) :=
  inferInstanceAs (Decidable (List.Nodup (ekeys es)))

theorem lookupE_cons (a : String) (w : FSNode) (es : Entries) (n : String) :
    lookupE ((a, w) :: es) n = if a = n then some w else lookupE es n := rfl

theorem setE_cons (n : String) (v : FSNode) (a : String) (w : FSNode) (es : Entries) :
    setE n v ((a, w) :: es) = if a = n then (n, v) :: es else (a, w) :: setE n v es := rfl

theorem eraseE_cons (n : String) (a : String) (w : FSNode) (es : Entries) :
    eraseE n ((a, w) :: es) = if a = n then es else (a, w) :: eraseE n es := rfl

theorem ekeys_cons (a : String) (w : FSNode) (es : Entries) :
    ekeys ((a, w) :: es) = a :: ekeys es := rfl

theorem lookupE_setE_self (es : Entries) (n : String) (v : FSNode) :
    lookupE (setE n v es) n = some v := by
  induction es with
  | nil => simp [setE, lookupE]
  | cons e es ih =>
    obtain ⟨a, w⟩ := e
    by_cases he : a = n
    · rw [setE_cons, if_pos he, lookupE_cons, if_pos rfl]
    · rw [setE_cons, if_neg he, lookupE_cons, if_neg he, ih]

theorem lookupE_setE_ne (es : Entries) {m n : String} (v : FSNode) (h : m ≠ n) :
    lookupE (setE n v es) m = lookupE es m := by
  have hnm : n ≠ m := Ne.symm h
  induction es with
  | nil => simp [setE, lookupE, hnm]
  | cons e es ih =>
    obtain ⟨a, w⟩ := e
    by_cases he : a = n
    · rw [setE_cons, if_pos he, lookupE_cons, if_neg hnm, lookupE_cons,
        if_neg (he ▸ hnm ∘ Eq.symm ∘ Eq.symm)]
    · rw [setE_cons, if_neg he, lookupE_cons, lookupE_cons, ih]

theorem setE_of_lookupE {es : Entries} {n : String} {v : FSNode}
    (h : lookupE es n = some v) : setE n v es = es := by
  induction es with
  | nil => simp [lookupE] at h
  | cons e es ih =>
    obtain ⟨a, w⟩ := e
    by_cases he : a = n
    · rw [lookupE_cons, if_pos he] at h
      cases h
      rw [setE_cons, if_pos he, he]
    · rw [lookupE_cons, if_neg he] at h
      rw [setE_cons, if_neg he, ih h]

theorem ekeys_setE_of_isSome {es : Entries} {n : String} (v : FSNode)
    (h : (lookupE es n).isSome) : ekeys (setE n v es) = ekeys es := by
  induction es with
  | nil => simp [lookupE] at h
  | cons e es ih =>
    obtain ⟨a, w⟩ := e
    by_cases he : a = n
    · rw [setE_cons, if_pos he, ekeys_cons, ekeys_cons, he]
    · rw [lookupE_cons, if_neg he] at h
      rw [setE_cons, if_neg he, ekeys_cons, ekeys_cons, ih h]

theorem ekeys_setE_of_none {es : Entries} {n : String} (v : FSNode)
    (h : lookupE es n = none) : ekeys (setE n v es) = ekeys es ++ [n] := by
  induction es with
  | nil => simp [setE, ekeys]
  | cons e es ih =>
    obtain ⟨a, w⟩ := e
    by_cases he : a = n
    · rw [lookupE_cons, if_pos he] at h
      cases h
    · rw [lookupE_cons, if_neg he] at h
      rw [setE_cons, if_neg he, ekeys_cons, ekeys_cons, ih h, List.cons_append]

theorem lookupE_isSome_iff_mem_ekeys {es : Entries} {n : String} :
    (lookupE es n).isSome ↔ n ∈ ekeys es := by
  induction es with
  | nil => simp [lookupE, ekeys]
  | cons e es ih =>
    obtain ⟨a, w⟩ := e
    by_cases he : a = n
    · simp [lookupE_cons, if_pos he, ekeys_cons, he]
    · rw [lookupE_cons, if_neg he, ekeys_cons]
      simp only [List.mem_cons, ih]
      exact ⟨Or.inr, fun hc => hc.elim (fun hc2 => absurd hc2.symm he) id⟩

theorem lookupE_none_iff_not_mem_ekeys {es : Entries} {n : String} :
    lookupE es n = none ↔ n ∉ ekeys es := by
  rw [← lookupE_isSome_iff_mem_ekeys, Option.not_isSome_iff_eq_none]

theorem nodupKeys_setE {es : Entries} {n : String} (v : FSNode)
    (h : nodupKeys es) : nodupKeys (setE n v es) := by
  rcases hl : lookupE es n with _ | v'
  · unfold nodupKeys
    rw [ekeys_setE_of_none v hl]
    have hn : n ∉ ekeys es := lookupE_none_iff_not_mem_ekeys.mp hl
    exact List.Nodup.append h (List.nodup_singleton n)
      (fun a ha hb => hn (List.mem_singleton.mp hb ▸ ha))
  · unfold nodupKeys
    rw [ekeys_setE_of_isSome v (by simp [hl])]
    exact h

theorem mem_of_lookupE_eq_some {es : Entries} {n : String} {v : FSNode}
    (h : lookupE es n = some v) : (n, v) ∈ es := by
  induction es with
  | nil => simp [lookupE] at h
  | cons e es ih =>
    obtain ⟨a, w⟩ := e
    by_cases he : a = n
    · rw [lookupE_cons, if_pos he] at h
      cases h
      rw [he]
      exact List.mem_cons_self _ _
    · rw [lookupE_cons, if_neg he] at h
      exact List.mem_cons_of_mem _ (ih h)

theorem lookupE_eq_some_of_mem {es : Entries} {n : String} {v : FSNode}
    (hnd : nodupKeys es) (h : (n, v) ∈ es) : lookupE es n = some v := by
  induction es with
  | nil => simp at h
  | cons e es ih =>
    obtain ⟨a, w⟩ := e
    have hnd2 : a ∉ es.map Prod.fst ∧ (es.map Prod.fst).Nodup := by
      simpa [nodupKeys, ekeys] using hnd
    rcases List.mem_cons.mp h with hc | h'
    · cases hc
      rw [lookupE_cons, if_pos rfl]
    · have he : a ≠ n := by
        intro hc
        exact hnd2.1 (by rw [hc]; exact List.mem_map_of_mem Prod.fst h')
      rw [lookupE_cons, if_neg he]
      exact ih hnd2.2 h'

theorem eraseE_of_lookupE_none {es : Entries} {n : String}
    (h : lookupE es n = none) : eraseE n es = es := by
  induction es with
  | nil => rfl
  | cons e es ih =>
    obtain ⟨a, w⟩ := e
    by_cases he : a = n
    · rw [lookupE_cons, if_pos he] at h
      cases h
    · rw [lookupE_cons, if_neg he] at h
      rw [eraseE_cons, if_neg he, ih h]

theorem lookupE_eraseE_ne (es : Entries) {m n : String} (h : m ≠ n) :
    lookupE (eraseE n es) m = lookupE es m := by
  induction es with
  | nil => rfl
  | cons e es ih =>
    obtain ⟨a, w⟩ := e
    by_cases he : a = n
    · rw [eraseE_cons, if_pos he, lookupE_cons, if_neg (he ▸ fun hc => h hc.symm)]
    · rw [eraseE_cons, if_neg he, lookupE_cons, lookupE_cons, ih]

theorem ekeys_eraseE (es : Entries) (n : String) :
    ekeys (eraseE n es) = (ekeys es).erase n := by
  induction es with
  | nil => rfl
  | cons e es ih =>
    obtain ⟨a, w⟩ := e
    by_cases he : a = n
    · rw [eraseE_cons, if_pos he, ekeys_cons, List.erase_cons, if_pos (by simp [he])]
    · rw [eraseE_cons, if_neg he, ekeys_cons, ekeys_cons, List.erase_cons,
        if_neg (by simp [he]), ih]

theorem nodupKeys_eraseE {es : Entries} (n : String) (h : nodupKeys es) :
    nodupKeys (eraseE n es) := by
  unfold nodupKeys
  rw [ekeys_eraseE]
  exact h.erase n

theorem lookupE_eraseE_self {es : Entries} {n : String} (hnd : nodupKeys es) :
    lookupE (eraseE n es) n = none := by
  rw [lookupE_none_iff_not_mem_ekeys, ekeys_eraseE]
  exact fun hc => ((List.Nodup.mem_erase_iff hnd).mp hc).1 rfl

/-! ### Sorting and set-operation lemmas -/

theorem sortByName_perm {α : Type} (l : List (String × α)) : List.Perm (sortByName l) l :=
  List.perm_insertionSort _ l

theorem sortByName_sorted {α : Type} (l : List (String × α)) :
    List.Sorted nameLe (sortByName l) :=
  List.sorted_insertionSort _ l

theorem mem_sortByName {α : Type} {l : List (String × α)} {p : String × α} :
    p ∈ sortByName l ↔ p ∈ l :=
  (sortByName_perm l).mem_iff

theorem sortStrs_perm (l : List String) : List.Perm (sortStrs l) l :=
  List.perm_insertionSort _ l

theorem sortStrs_sorted (l : List String) :
    List.Sorted (fun a b => a ≤ b) (sortStrs l) :=
  List.sorted_insertionSort _ l

theorem mem_sortStrs {l : List String} {x : String} : x ∈ sortStrs l ↔ x ∈ l :=
  (sortStrs_perm l).mem_iff

theorem sortStrs_nodup {l : List String} (h : l.Nodup) : (sortStrs l).Nodup :=
  ((sortStrs_perm l).nodup_iff).mpr h

theorem mem_pySortedSetInter {a b : List String} {x : String} :
    x ∈ pySortedSetInter a b ↔ x ∈ a ∧ x ∈ b := by
  simp [pySortedSetInter, mem_sortStrs, List.mem_dedup, List.mem_filter]

theorem mem_pySortedSetDiff {a b : List String} {x : String} :
    x ∈ pySortedSetDiff a b ↔ x ∈ a ∧ x ∉ b := by
  simp [pySortedSetDiff, mem_sortStrs, List.mem_dedup, List.mem_filter]

theorem pySortedSetInter_nodup (a b : List String) : (pySortedSetInter a b).Nodup :=
  sortStrs_nodup (List.nodup_dedup _)

theorem pySortedSetDiff_nodup (a b : List String) : (pySortedSetDiff a b).Nodup :=
  sortStrs_nodup (List.nodup_dedup _)

/-! ### Enumerator lemmas -/

theorem mem_iter_locale_dirs {es : Entries} {p : String × Entries} :
    p ∈ iter_locale_dirs (some es) ↔
      (p.1, FSNode.dir p.2) ∈ es ∧ is_hidden_path p.1 = false := by
  unfold iter_locale_dirs
  rw [mem_sortByName, List.mem_filterMap]
  constructor
  · rintro ⟨e, he, hf⟩
    obtain ⟨a, w⟩ := e
    cases w with
    | file c => exact Option.noConfusion hf
    | dir cs =>
      dsimp only at hf
      by_cases hh : is_hidden_path a = true
      · rw [if_pos hh] at hf
        exact Option.noConfusion hf
      · rw [if_neg hh] at hf
        cases hf
        exact ⟨he, Bool.not_eq_true _ ▸ hh⟩
  · rintro ⟨hmem, hhid⟩
    refine ⟨(p.1, FSNode.dir p.2), hmem, ?_⟩
    dsimp only
    rw [if_neg (by rw [hhid]; exact Bool.false_ne_true), Prod.mk.eta]

theorem mem_iter_png_files {es : Entries} {p : String × Image} :
    p ∈ iter_png_files (some es) ↔
      (p.1, FSNode.file p.2) ∈ es ∧ is_hidden_path p.1 = false ∧
        pyLower (pySuffix p.1) = ".png" := by
  unfold iter_png_files
  rw [mem_sortByName, List.mem_filterMap]
  constructor
  · rintro ⟨e, he, hf⟩
    obtain ⟨a, w⟩ := e
    cases w with
    | dir cs => exact Option.noConfusion hf
    | file c =>
      dsimp only at hf
      by_cases hh : (!is_hidden_path a && (pyLower (pySuffix a) == ".png")) = true
      · rw [if_pos hh] at hf
        cases hf
        rcases (Bool.and_eq_true _ _) ▸ hh with ⟨h1, h2⟩
        exact ⟨he, (Bool.not_eq_true' _) ▸ h1, eq_of_beq h2⟩
      · rw [if_neg hh] at hf
        exact Option.noConfusion hf
  · rintro ⟨hmem, hhid, hsuf⟩
    refine ⟨(p.1, FSNode.file p.2), hmem, ?_⟩
    dsimp only
    rw [if_pos ((Bool.and_eq_true _ _).symm ▸ ⟨(Bool.not_eq_true' _).symm ▸ hhid, beq_of_eq hsuf⟩),
      Prod.mk.eta]

theorem map_fst_filterMap_sublist {α β : Type} (f : String × α → Option (String × β))
    (hf : ∀ e q, f e = some q → q.1 = e.1) (l : List (String × α)) :
    List.Sublist ((l.filterMap f).map Prod.fst) (l.map Prod.fst) := by
  induction l with
  | nil => simp
  | cons e l ih =>
    rcases hfe : f e with _ | q
    · rw [List.filterMap_cons_none hfe, List.map_cons]
      exact ih.cons e.1
    · rw [List.filterMap_cons_some hfe, List.map_cons, List.map_cons, hf e q hfe]
      exact ih.cons₂ e.1

theorem nodup_keys_iter_locale_dirs {es : Entries} (h : nodupKeys es) :
    ((iter_locale_dirs (some es)).map Prod.fst).Nodup := by
  unfold iter_locale_dirs
  refine (((sortByName_perm _).map Prod.fst).nodup_iff).mpr ?_
  refine List.Nodup.sublist (map_fst_filterMap_sublist _ ?_ es) h
  rintro ⟨a, w⟩ q hq
  cases w with
  | file c => exact Option.noConfusion hq
  | dir cs =>
    dsimp only at hq
    by_cases hh : is_hidden_path a = true
    · rw [if_pos hh] at hq
      exact Option.noConfusion hq
    · rw [if_neg hh] at hq
      cases hq
      rfl

theorem nodup_keys_iter_png_files {es : Entries} (h : nodupKeys es) :
    ((iter_png_files (some es)).map Prod.fst).Nodup := by
  unfold iter_png_files
  refine (((sortByName_perm _).map Prod.fst).nodup_iff).mpr ?_
  refine List.Nodup.sublist (map_fst_filterMap_sublist _ ?_ es) h
  rintro ⟨a, w⟩ q hq
  cases w with
  | dir cs => exact Option.noConfusion hq
  | file c =>
    dsimp only at hq
    by_cases hh : (!is_hidden_path a && (pyLower (pySuffix a) == ".png")) = true
    · rw [if_pos hh] at hq
      cases hq
      rfl
    · rw [if_neg hh] at hq
      exact Option.noConfusion hq

theorem list_lookup_eq_some_iff {α : Type} {l : List (String × α)}
    (hnd : (l.map Prod.fst).Nodup) {n : String} {c : α} :
    List.lookup n l = some c ↔ (n, c) ∈ l := by
  induction l with
  | nil => simp [List.lookup]
  | cons e l ih =>
    obtain ⟨a, w⟩ := e
    rcases List.nodup_cons.mp (by rw [List.map_cons] at hnd; exact hnd) with ⟨hna, hnd'⟩
    by_cases hna2 : n = a
    · subst hna2
      simp only [List.lookup, beq_self_eq_true]
      constructor
      · rintro h
        cases h
        exact List.mem_cons_self _ _
      · rintro h
        rcases List.mem_cons.mp h with hc | hc
        · cases hc
          rfl
        · exact absurd (List.mem_map_of_mem Prod.fst hc) hna
    · have hbeq : (n == a) = false := by
        rw [beq_eq_false_iff_ne]
        exact hna2
      simp only [List.lookup, hbeq]
      rw [ih hnd']
      constructor
      · exact List.mem_cons_of_mem _
      · intro h
        rcases List.mem_cons.mp h with hc | hc
        · cases hc
          exact absurd rfl hna2
        · exact hc

theorem list_lookup_isSome_iff {α : Type} {l : List (String × α)} {n : String} :
    (List.lookup n l).isSome ↔ n ∈ l.map Prod.fst := by
  induction l with
  | nil => simp [List.lookup]
  | cons e l ih =>
    obtain ⟨a, w⟩ := e
    by_cases hna : n = a
    · subst hna
      simp [List.lookup]
    · have hbeq : (n == a) = false := by
        rw [beq_eq_false_iff_ne]
        exact hna
      simp only [List.lookup, hbeq, List.map_cons, List.mem_cons]
      rw [ih]
      exact ⟨Or.inr, fun h => h.elim (fun hc => absurd hc hna) id⟩

theorem list_lookup_none_iff {α : Type} {l : List (String × α)} {n : String} :
    List.lookup n l = none ↔ n ∉ l.map Prod.fst := by
  rw [← list_lookup_isSome_iff, Option.not_isSome_iff_eq_none]

/-! ### Filesystem-primitive lemmas -/

theorem setE_setE (n : String) (v1 v2 : FSNode) (es : Entries) :
    setE n v2 (setE n v1 es) = setE n v2 es := by
  induction es with
  | nil => simp [setE]
  | cons e es ih =>
    obtain ⟨a, w⟩ := e
    by_cases he : a = n
    · rw [setE_cons, if_pos he, setE_cons, if_pos rfl, setE_cons, if_pos he]
    · rw [setE_cons, if_neg he, setE_cons, if_neg he, setE_cons, if_neg he, ih]

/-- The effect every old-side file mutation of `sync_locale` has on the
filesystem: replace the listing of the old-side locale folder `L`. -/
def setOldDir (fs : FS) (L : String) (d : Entries) : FS :=
  fs.setRoot .old (setE L (.dir d) fs.oldRoot)

theorem setOldDir_newRoot (fs : FS) (L : String) (d : Entries) :
    (setOldDir fs L d).newRoot = fs.newRoot := rfl

theorem setOldDir_oldRoot (fs : FS) (L : String) (d : Entries) :
    (setOldDir fs L d).oldRoot = setE L (.dir d) fs.oldRoot := rfl

theorem setOldDir_setOldDir (fs : FS) (L : String) (d1 d2 : Entries) :
    setOldDir (setOldDir fs L d1) L d2 = setOldDir fs L d2 := by
  unfold setOldDir
  cases fs
  simp [FS.setRoot, setE_setE]

theorem setOldDir_self {fs : FS} {L : String} {d : Entries}
    (h : lookupE fs.oldRoot L = some (.dir d)) : setOldDir fs L d = fs := by
  unfold setOldDir
  rw [setE_of_lookupE h]
  cases fs
  rfl

theorem lookupE_setOldDir_self (fs : FS) (L : String) (d : Entries) :
    lookupE (setOldDir fs L d).oldRoot L = some (.dir d) :=
  lookupE_setE_self _ _ _

theorem lookupE_setOldDir_ne (fs : FS) {M L : String} (d : Entries) (h : M ≠ L) :
    lookupE (setOldDir fs L d).oldRoot M = lookupE fs.oldRoot M :=
  lookupE_setE_ne _ _ h

theorem copy_file_old_dir {fs : FS} {L : String} {d : Entries}
    (h : lookupE fs.oldRoot L = some (.dir d)) (srcName : String) (c : Image) (n : String) :
    copy_file fs srcName c ⟨⟨Side.old, L⟩, n⟩ = setOldDir fs L (copy2Into d n srcName c) := by
  unfold copy_file
  simp only [FS.root, setOldDir]
  rw [h]

theorem remove_file_old_dir {fs : FS} {L : String} {d : Entries}
    (h : lookupE fs.oldRoot L = some (.dir d)) (n : String) :
    remove_file fs ⟨⟨Side.old, L⟩, n⟩ = setOldDir fs L (eraseE n d) := by
  unfold remove_file unlinkE FS.dirAt
  simp only [FS.root]
  rw [h]
  dsimp only
  rcases hl : lookupE d n with _ | v
  · dsimp only
    rw [eraseE_of_lookupE_none hl, setOldDir_self h]
  · rfl

/-- `mkdir` for an absent old-side name creates an empty folder. -/
theorem mkdirP_absent {fs : FS} {L : String}
    (h : lookupE fs.oldRoot L = none) :
    mkdirP fs ⟨Side.old, L⟩ = some (setOldDir fs L []) := by
  unfold mkdirP
  simp only [FS.root]
  rw [h]
  rfl

theorem mkdirP_dir {fs : FS} {L : String} {d : Entries}
    (h : lookupE fs.oldRoot L = some (.dir d)) :
    mkdirP fs ⟨Side.old, L⟩ = some fs := by
  unfold mkdirP
  simp only [FS.root]
  rw [h]

theorem mkdirP_file {fs : FS} {L : String} {c : Image}
    (h : lookupE fs.oldRoot L = some (.file c)) :
    mkdirP fs ⟨Side.old, L⟩ = none := by
  unfold mkdirP
  simp only [FS.root]
  rw [h]

theorem copy_file_newRoot (fs : FS) (srcName : String) (c : Image) (L n : String) :
    (copy_file fs srcName c ⟨⟨Side.old, L⟩, n⟩).newRoot = fs.newRoot := by
  unfold copy_file
  simp only [FS.root]
  rcases lookupE fs.oldRoot L with _ | v
  · rfl
  · cases v <;> rfl

theorem remove_file_newRoot (fs : FS) (L n : String) :
    (remove_file fs ⟨⟨Side.old, L⟩, n⟩).newRoot = fs.newRoot := by
  unfold remove_file unlinkE FS.dirAt
  simp only [FS.root]
  rcases lookupE fs.oldRoot L with _ | v
  · rfl
  · cases v with
    | file c => rfl
    | dir d =>
      dsimp only
      rcases lookupE d n with _ | w <;> rfl

theorem mkdirP_newRoot {fs fs' : FS} {L : String}
    (h : mkdirP fs ⟨Side.old, L⟩ = some fs') : fs'.newRoot = fs.newRoot := by
  unfold mkdirP at h
  simp only [FS.root] at h
  rcases hL : lookupE fs.oldRoot L with _ | v
  · rw [hL] at h
    dsimp only at h
    cases h
    rfl
  · rw [hL] at h
    cases v with
    | file c => exact Option.noConfusion h
    | dir d =>
      dsimp only at h
      cases h
      rfl

theorem copy_file_lookup_ne (fs : FS) (srcName : String) (c : Image) {L M : String}
    (n : String) (h : M ≠ L) :
    lookupE (copy_file fs srcName c ⟨⟨Side.old, L⟩, n⟩).oldRoot M = lookupE fs.oldRoot M := by
  unfold copy_file
  simp only [FS.root]
  rcases lookupE fs.oldRoot L with _ | v
  · exact lookupE_setE_ne _ _ h
  · cases v with
    | file cc => rfl
    | dir d => exact lookupE_setE_ne _ _ h

theorem remove_file_lookup_ne (fs : FS) {L M : String} (n : String) (h : M ≠ L) :
    lookupE (remove_file fs ⟨⟨Side.old, L⟩, n⟩).oldRoot M = lookupE fs.oldRoot M := by
  unfold remove_file unlinkE FS.dirAt
  simp only [FS.root]
  rcases lookupE fs.oldRoot L with _ | v
  · rfl
  · cases v with
    | file c => rfl
    | dir d =>
      dsimp only
      rcases lookupE d n with _ | w
      · rfl
      · exact lookupE_setE_ne _ _ h

theorem mkdirP_lookup_ne {fs fs' : FS} {L M : String}
    (hm : mkdirP fs ⟨Side.old, L⟩ = some fs') (h : M ≠ L) :
    lookupE fs'.oldRoot M = lookupE fs.oldRoot M := by
  unfold mkdirP at hm
  simp only [FS.root] at hm
  rcases hL : lookupE fs.oldRoot L with _ | v
  · rw [hL] at hm
    dsimp only at hm
    cases hm
    exact lookupE_setE_ne _ _ h
  · rw [hL] at hm
    cases v with
    | file c => exact Option.noConfusion hm
    | dir d =>
      dsimp only at hm
      cases hm
      rfl

/-! ### Characterizing the three reconciliation passes -/

/-- The names counted as `changed`: present in both snapshot maps with
non-equivalent contents. -/
def chPred (P : OracleParams) (O Nf : List (String × Image)) (n : String) : Bool :=
  match List.lookup n O, List.lookup n Nf with
  | some oc, some nc => !same_except_time P oc nc
  | _, _ => false

/-- The effect of one changed-pass iteration on the old locale listing. -/
def chEntry (P : OracleParams) (O Nf : List (String × Image)) (d : Entries) (n : String) :
    Entries :=
  match List.lookup n O, List.lookup n Nf with
  | some oc, some nc => if same_except_time P oc nc then d else copy2Into d n n nc
  | _, _ => d

/-- The effect of one added-pass iteration on the old locale listing. -/
def adEntry (Nf : List (String × Image)) (d : Entries) (n : String) : Entries :=
  match List.lookup n Nf with
  | some nc => copy2Into d n n nc
  | none => d

theorem changedPass_stats (P : OracleParams) (lp : DirPath) (O Nf : List (String × Image))
    (names : List String) (acc : LocaleStats × FS) :
    (names.foldl (changedStep P lp O Nf) acc).1 =
      { acc.1 with changed := acc.1.changed + names.countP (chPred P O Nf) } := by
  induction names generalizing acc with
  | nil => simp
  | cons n names ih =>
    rw [List.foldl_cons, ih, List.countP_cons]
    unfold changedStep chPred
    rcases List.lookup n O with _ | oc <;> rcases List.lookup n Nf with _ | nc <;> dsimp only
    · simp
    · simp
    · simp
    · by_cases hs : same_except_time P oc nc = true
      · rw [if_pos hs, hs]
        simp
      · have hsf : same_except_time P oc nc = false := by rwa [Bool.not_eq_true] at hs
        rw [if_neg hs]
        simp [hsf, Nat.add_comm, Nat.add_assoc, Nat.add_left_comm]

theorem changedPass_fs (P : OracleParams) {L : String} {d : Entries}
    (O Nf : List (String × Image)) (names : List String) (acc : LocaleStats × FS)
    (h : lookupE acc.2.oldRoot L = some (.dir d)) :
    (names.foldl (changedStep P ⟨Side.old, L⟩ O Nf) acc).2 =
      setOldDir acc.2 L (names.foldl (chEntry P O Nf) d) := by
  induction names generalizing acc d with
  | nil => exact (setOldDir_self h).symm
  | cons n names ih =>
    rw [List.foldl_cons, List.foldl_cons]
    rcases ho : List.lookup n O with _ | oc
    · have h1 : changedStep P ⟨Side.old, L⟩ O Nf acc n = acc := by
        simp only [changedStep, ho]
      have h2 : chEntry P O Nf d n = d := by
        simp only [chEntry, ho]
      rw [h1, h2]
      exact ih acc h
    · rcases hn : List.lookup n Nf with _ | nc
      · have h1 : changedStep P ⟨Side.old, L⟩ O Nf acc n = acc := by
          simp only [changedStep, ho, hn]
        have h2 : chEntry P O Nf d n = d := by
          simp only [chEntry, ho, hn]
        rw [h1, h2]
        exact ih acc h
      · by_cases hs : same_except_time P oc nc = true
        · have h1 : changedStep P ⟨Side.old, L⟩ O Nf acc n = acc := by
            simp only [changedStep, ho, hn]
            rw [if_pos hs]
          have h2 : chEntry P O Nf d n = d := by
            simp only [chEntry, ho, hn]
            rw [if_pos hs]
          rw [h1, h2]
          exact ih acc h
        · have h1 : changedStep P ⟨Side.old, L⟩ O Nf acc n =
              ({ acc.1 with changed := acc.1.changed + 1 },
                setOldDir acc.2 L (copy2Into d n n nc)) := by
            simp only [changedStep, ho, hn]
            rw [if_neg hs, copy_file_old_dir h n nc n]
          have h2 : chEntry P O Nf d n = copy2Into d n n nc := by
            simp only [chEntry, ho, hn]
            rw [if_neg hs]
          rw [h1, h2]
          have h3 := ih ({ acc.1 with changed := acc.1.changed + 1 },
            setOldDir acc.2 L (copy2Into d n n nc)) (lookupE_setOldDir_self acc.2 L _)
          dsimp only at h3
          rw [h3, setOldDir_setOldDir]

theorem removedPass_stats (lp : DirPath) (names : List String) (acc : LocaleStats × FS) :
    (names.foldl (removedStep lp) acc).1 =
      { acc.1 with
        removed := acc.1.removed + names.length
        removed_files := acc.1.removed_files ++ names.map (fun n => lp.name ++ "/" ++ n) } := by
  induction names generalizing acc with
  | nil => simp
  | cons n names ih =>
    rw [List.foldl_cons, ih]
    unfold removedStep
    dsimp only
    simp [Nat.add_comm, Nat.add_assoc, Nat.add_left_comm]

theorem removedPass_fs {L : String} {d : Entries} (names : List String)
    (acc : LocaleStats × FS) (h : lookupE acc.2.oldRoot L = some (.dir d)) :
    (names.foldl (removedStep ⟨Side.old, L⟩) acc).2 =
      setOldDir acc.2 L (names.foldl (fun d2 n => eraseE n d2) d) := by
  induction names generalizing acc d with
  | nil => exact (setOldDir_self h).symm
  | cons n names ih =>
    rw [List.foldl_cons, List.foldl_cons]
    have h1 : removedStep ⟨Side.old, L⟩ acc n =
        ({ acc.1 with
            removed := acc.1.removed + 1
            removed_files := acc.1.removed_files ++ [L ++ "/" ++ n] },
          setOldDir acc.2 L (eraseE n d)) := by
      unfold removedStep
      rw [remove_file_old_dir h n]
    rw [h1]
    have h3 := ih ({ acc.1 with
        removed := acc.1.removed + 1
        removed_files := acc.1.removed_files ++ [L ++ "/" ++ n] },
      setOldDir acc.2 L (eraseE n d)) (lookupE_setOldDir_self acc.2 L _)
    dsimp only at h3
    rw [h3, setOldDir_setOldDir]

theorem addedPass_stats (lp : DirPath) (Nf : List (String × Image))
    (names : List String) (acc : LocaleStats × FS) :
    (names.foldl (addedStep lp Nf) acc).1 =
      { acc.1 with added := acc.1.added + names.countP (fun n => (List.lookup n Nf).isSome) } := by
  induction names generalizing acc with
  | nil => simp
  | cons n names ih =>
    rw [List.foldl_cons, ih, List.countP_cons]
    unfold addedStep
    rcases List.lookup n Nf with _ | nc <;> dsimp only
    · simp
    · simp [Nat.add_comm, Nat.add_assoc, Nat.add_left_comm]

theorem addedPass_fs {L : String} {d : Entries} (Nf : List (String × Image))
    (names : List String) (acc : LocaleStats × FS)
    (h : lookupE acc.2.oldRoot L = some (.dir d)) :
    (names.foldl (addedStep ⟨Side.old, L⟩ Nf) acc).2 =
      setOldDir acc.2 L (names.foldl (adEntry Nf) d) := by
  induction names generalizing acc d with
  | nil => exact (setOldDir_self h).symm
  | cons n names ih =>
    rw [List.foldl_cons, List.foldl_cons]
    rcases hn : List.lookup n Nf with _ | nc
    · have h1 : addedStep ⟨Side.old, L⟩ Nf acc n = acc := by
        simp only [addedStep, hn]
      have h2 : adEntry Nf d n = d := by
        simp only [adEntry, hn]
      rw [h1, h2]
      exact ih acc h
    · have h1 : addedStep ⟨Side.old, L⟩ Nf acc n =
          ({ acc.1 with added := acc.1.added + 1 },
            setOldDir acc.2 L (copy2Into d n n nc)) := by
        simp only [addedStep, hn]
        rw [copy_file_old_dir h n nc n]
      have h2 : adEntry Nf d n = copy2Into d n n nc := by
        simp only [adEntry, hn]
      rw [h1, h2]
      have h3 := ih ({ acc.1 with added := acc.1.added + 1 },
        setOldDir acc.2 L (copy2Into d n n nc)) (lookupE_setOldDir_self acc.2 L _)
      dsimp only at h3
      rw [h3, setOldDir_setOldDir]

/-! ### Composing `sync_locale` -/

/-- The eligible-file map of a locale listing: the dict
`{p.name: p for p in iter_png_files(...)}` as a name-sorted association
list. -/
def pngMap (es : Entries) : List (String × Image) := iter_png_files (some es)

/-- The eligible file names of a locale listing, ascending. -/
def pngNames (es : Entries) : List String := (pngMap es).map Prod.fst

/-- The names processed by the changed pass: `sorted(old ∩ new)`. -/
def interNames (oe ne : Entries) : List String :=
  pySortedSetInter (pngNames oe) (pngNames ne)

/-- The names processed by the removed pass: `sorted(old - new)`. -/
def remNames (oe ne : Entries) : List String :=
  pySortedSetDiff (pngNames oe) (pngNames ne)

/-- The names processed by the added pass: `sorted(new - old)`. -/
def addNames (oe ne : Entries) : List String :=
  pySortedSetDiff (pngNames ne) (pngNames oe)

/-- The statistics `sync_locale` returns for a locale present on both
sides. -/
def syncStats (P : OracleParams) (L : String) (oe ne : Entries) : LocaleStats :=
  { locale := L
    changed := (interNames oe ne).countP (chPred P (pngMap oe) (pngMap ne))
    added := (addNames oe ne).countP (fun n => (List.lookup n (pngMap ne)).isSome)
    removed := (remNames oe ne).length
    removed_files := (remNames oe ne).map (fun n => L ++ "/" ++ n) }

/-- The listing of the old locale folder after the three passes. -/
def syncDir (P : OracleParams) (oe ne : Entries) : Entries :=
  (addNames oe ne).foldl (adEntry (pngMap ne))
    ((remNames oe ne).foldl (fun d2 n => eraseE n d2)
      ((interNames oe ne).foldl (chEntry P (pngMap oe) (pngMap ne)) oe))

/-- `sync_locale` with `new_loc is None`: missing-in-new, no effect. -/
theorem sync_locale_missing (P : OracleParams) (fs : FS) (old_loc : DirPath) :
    sync_locale P fs old_loc none =
      ({ locale := old_loc.name, missing_in_new := true }, fs) := rfl

/-- `sync_locale` with a nonexistent `new_loc`: missing-in-new, no effect. -/
theorem sync_locale_notexists (P : OracleParams) (fs : FS) (old_loc : DirPath)
    {nl : DirPath} (h : pathExistsD fs nl = false) :
    sync_locale P fs old_loc (some nl) =
      ({ locale := old_loc.name, missing_in_new := true }, fs) := by
  simp only [sync_locale]
  rw [h, if_pos rfl]

/-- The main `sync_locale` equation for a locale present on both sides. -/
theorem sync_locale_eq (P : OracleParams) {fs : FS} {L : String} {oe ne : Entries}
    (hol : lookupE fs.oldRoot L = some (.dir oe))
    (hnl : lookupE fs.newRoot L = some (.dir ne)) :
    sync_locale P fs ⟨Side.old, L⟩ (some ⟨Side.new, L⟩) =
      (syncStats P L oe ne, setOldDir fs L (syncDir P oe ne)) := by
  have hex : pathExistsD fs ⟨Side.new, L⟩ = true := by
    unfold pathExistsD
    simp [FS.root, hnl]
  have hda : fs.dirAt ⟨Side.old, L⟩ = some oe := by
    unfold FS.dirAt
    simp [FS.root, hol]
  have hdb : fs.dirAt ⟨Side.new, L⟩ = some ne := by
    unfold FS.dirAt
    simp [FS.root, hnl]
  simp only [sync_locale, hex, hda, hdb]
  rw [if_neg (by decide : ¬(true = false))]
  refine Prod.ext ?_ ?_
  · rw [addedPass_stats, removedPass_stats, changedPass_stats]
    simp only [syncStats, interNames, remNames, addNames, pngMap, pngNames]
    simp
  · show ((addNames oe ne).foldl (addedStep ⟨Side.old, L⟩ (pngMap ne))
        ((remNames oe ne).foldl (removedStep ⟨Side.old, L⟩)
          ((interNames oe ne).foldl (changedStep P ⟨Side.old, L⟩ (pngMap oe) (pngMap ne))
            ({ locale := L }, fs)))).2 = setOldDir fs L (syncDir P oe ne)
    have h1 := changedPass_fs P (pngMap oe) (pngMap ne) (interNames oe ne)
      ({ locale := L }, fs) hol
    have h1' : lookupE ((interNames oe ne).foldl
        (changedStep P ⟨Side.old, L⟩ (pngMap oe) (pngMap ne))
          ({ locale := L }, fs)).2.oldRoot L =
        some (.dir ((interNames oe ne).foldl (chEntry P (pngMap oe) (pngMap ne)) oe)) := by
      rw [h1]
      exact lookupE_setOldDir_self _ _ _
    have h2 := removedPass_fs (remNames oe ne) _ h1'
    have h2' : lookupE ((remNames oe ne).foldl (removedStep ⟨Side.old, L⟩)
        ((interNames oe ne).foldl (changedStep P ⟨Side.old, L⟩ (pngMap oe) (pngMap ne))
          ({ locale := L }, fs))).2.oldRoot L =
        some (.dir ((remNames oe ne).foldl (fun d2 n => eraseE n d2)
          ((interNames oe ne).foldl (chEntry P (pngMap oe) (pngMap ne)) oe))) := by
      rw [h2]
      exact lookupE_setOldDir_self _ _ _
    have h3 := addedPass_fs (pngMap ne) (addNames oe ne) _ h2'
    rw [h3, h2, setOldDir_setOldDir, h1, setOldDir_setOldDir]
    rfl

/-! ### Entry-level characterization of the three passes -/

theorem lookupE_copy2Into_self {d : Entries} {n : String} (srcName : String) (c : Image)
    (h : ∀ cs : Entries, lookupE d n ≠ some (.dir cs)) :
    lookupE (copy2Into d n srcName c) n = some (.file c) := by
  unfold copy2Into
  rcases hl : lookupE d n with _ | v
  · exact lookupE_setE_self _ _ _
  · cases v with
    | file cc => exact lookupE_setE_self _ _ _
    | dir cs => exact absurd hl (h cs)

theorem lookupE_copy2Into_ne {d : Entries} {n m : String} (srcName : String) (c : Image)
    (hmn : m ≠ n) :
    lookupE (copy2Into d n srcName c) m = lookupE d m := by
  unfold copy2Into
  rcases lookupE d n with _ | v
  · exact lookupE_setE_ne _ _ hmn
  · cases v with
    | file cc => exact lookupE_setE_ne _ _ hmn
    | dir cs => exact lookupE_setE_ne _ _ hmn

theorem nodupKeys_copy2Into {d : Entries} (n srcName : String) (c : Image)
    (h : nodupKeys d) : nodupKeys (copy2Into d n srcName c) := by
  unfold copy2Into
  rcases lookupE d n with _ | v
  · exact nodupKeys_setE _ h
  · cases v with
    | file cc => exact nodupKeys_setE _ h
    | dir cs => exact nodupKeys_setE _ h

theorem chEntry_lookup_ne (P : OracleParams) (O Nf : List (String × Image)) (d : Entries)
    {m n : String} (hmn : m ≠ n) :
    lookupE (chEntry P O Nf d n) m = lookupE d m := by
  rcases ho : List.lookup n O with _ | oc
  · simp only [chEntry, ho]
  · rcases hn2 : List.lookup n Nf with _ | nc
    · simp only [chEntry, ho, hn2]
    · simp only [chEntry, ho, hn2]
      by_cases hs : same_except_time P oc nc = true
      · rw [if_pos hs]
      · rw [if_neg hs]
        exact lookupE_copy2Into_ne _ _ hmn

theorem chEntry_nodup (P : OracleParams) (O Nf : List (String × Image)) {d : Entries}
    (n : String) (h : nodupKeys d) : nodupKeys (chEntry P O Nf d n) := by
  rcases ho : List.lookup n O with _ | oc
  · simp only [chEntry, ho]
    exact h
  · rcases hn2 : List.lookup n Nf with _ | nc
    · simp only [chEntry, ho, hn2]
      exact h
    · simp only [chEntry, ho, hn2]
      by_cases hs : same_except_time P oc nc = true
      · rw [if_pos hs]
        exact h
      · rw [if_neg hs]
        exact nodupKeys_copy2Into _ _ _ h

theorem adEntry_lookup_ne (Nf : List (String × Image)) (d : Entries) {m n : String}
    (hmn : m ≠ n) : lookupE (adEntry Nf d n) m = lookupE d m := by
  rcases hn2 : List.lookup n Nf with _ | nc
  · simp only [adEntry, hn2]
  · simp only [adEntry, hn2]
    exact lookupE_copy2Into_ne _ _ hmn

theorem adEntry_nodup (Nf : List (String × Image)) {d : Entries} (n : String)
    (h : nodupKeys d) : nodupKeys (adEntry Nf d n) := by
  rcases hn2 : List.lookup n Nf with _ | nc
  · simp only [adEntry, hn2]
    exact h
  · simp only [adEntry, hn2]
    exact nodupKeys_copy2Into _ _ _ h

theorem chFold_lookup_not_mem (P : OracleParams) (O Nf : List (String × Image))
    (names : List String) (d : Entries) {m : String} (hm : m ∉ names) :
    lookupE (names.foldl (chEntry P O Nf) d) m = lookupE d m := by
  induction names generalizing d with
  | nil => rfl
  | cons n names ih =>
    rw [List.foldl_cons, ih _ (fun hc => hm (List.mem_cons_of_mem _ hc))]
    exact chEntry_lookup_ne P O Nf d (fun hc => hm (hc ▸ List.mem_cons_self _ _))

theorem chFold_nodup (P : OracleParams) (O Nf : List (String × Image))
    (names : List String) {d : Entries} (h : nodupKeys d) :
    nodupKeys (names.foldl (chEntry P O Nf) d) := by
  induction names generalizing d with
  | nil => exact h
  | cons n names ih =>
    rw [List.foldl_cons]
    exact ih (chEntry_nodup P O Nf n h)

theorem chFold_lookup_mem (P : OracleParams) (O Nf : List (String × Image))
    {names : List String} (hnd : names.Nodup) {d : Entries} {m : String} (hm : m ∈ names)
    {oc nc : Image} (ho : List.lookup m O = some oc) (hn2 : List.lookup m Nf = some nc)
    (hd : lookupE d m = some (.file oc)) :
    lookupE (names.foldl (chEntry P O Nf) d) m =
      if same_except_time P oc nc then some (.file oc) else some (.file nc) := by
  induction names generalizing d with
  | nil => cases hm
  | cons n names ih =>
    rw [List.foldl_cons]
    rcases List.nodup_cons.mp hnd with ⟨hnin, hnd'⟩
    rcases List.mem_cons.mp hm with rfl | hm'
    · rw [chFold_lookup_not_mem P O Nf names _ hnin]
      simp only [chEntry, ho, hn2]
      by_cases hs : same_except_time P oc nc = true
      · rw [if_pos hs, if_pos hs]
        exact hd
      · rw [if_neg hs, if_neg hs]
        exact lookupE_copy2Into_self _ _ (fun cs hc => by rw [hd] at hc; cases hc)
    · have hne2 : m ≠ n := fun hc => hnin (hc ▸ hm')
      refine ih hnd' hm' ?_
      rw [chEntry_lookup_ne P O Nf d hne2]
      exact hd

theorem rmFold_lookup_not_mem (names : List String) (d : Entries) {m : String}
    (hm : m ∉ names) :
    lookupE (names.foldl (fun d2 n => eraseE n d2) d) m = lookupE d m := by
  induction names generalizing d with
  | nil => rfl
  | cons n names ih =>
    rw [List.foldl_cons, ih _ (fun hc => hm (List.mem_cons_of_mem _ hc))]
    exact lookupE_eraseE_ne d (fun hc => hm (hc ▸ List.mem_cons_self _ _))

theorem rmFold_nodup (names : List String) {d : Entries} (h : nodupKeys d) :
    nodupKeys (names.foldl (fun d2 n => eraseE n d2) d) := by
  induction names generalizing d with
  | nil => exact h
  | cons n names ih =>
    rw [List.foldl_cons]
    exact ih (nodupKeys_eraseE n h)

theorem rmFold_lookup_mem (names : List String) {d : Entries} {m : String}
    (hd : nodupKeys d) (hm : m ∈ names) :
    lookupE (names.foldl (fun d2 n => eraseE n d2) d) m = none := by
  induction names generalizing d with
  | nil => cases hm
  | cons n names ih =>
    rw [List.foldl_cons]
    by_cases hmn : m = n
    · subst hmn
      by_cases hm2 : m ∈ names
      · exact ih (nodupKeys_eraseE _ hd) hm2
      · rw [rmFold_lookup_not_mem names _ hm2]
        exact lookupE_eraseE_self hd
    · rcases List.mem_cons.mp hm with hc | hm2
      · exact absurd hc hmn
      · exact ih (nodupKeys_eraseE _ hd) hm2

theorem adFold_lookup_not_mem (Nf : List (String × Image)) (names : List String)
    (d : Entries) {m : String} (hm : m ∉ names) :
    lookupE (names.foldl (adEntry Nf) d) m = lookupE d m := by
  induction names generalizing d with
  | nil => rfl
  | cons n names ih =>
    rw [List.foldl_cons, ih _ (fun hc => hm (List.mem_cons_of_mem _ hc))]
    exact adEntry_lookup_ne Nf d (fun hc => hm (hc ▸ List.mem_cons_self _ _))

theorem adFold_nodup (Nf : List (String × Image)) (names : List String) {d : Entries}
    (h : nodupKeys d) : nodupKeys (names.foldl (adEntry Nf) d) := by
  induction names generalizing d with
  | nil => exact h
  | cons n names ih =>
    rw [List.foldl_cons]
    exact ih (adEntry_nodup Nf n h)

theorem adFold_lookup_mem (Nf : List (String × Image)) {names : List String}
    (hnd : names.Nodup) {d : Entries} {m : String} {nc : Image} (hm : m ∈ names)
    (hn2 : List.lookup m Nf = some nc)
    (hdir : ∀ cs : Entries, lookupE d m ≠ some (.dir cs)) :
    lookupE (names.foldl (adEntry Nf) d) m = some (.file nc) := by
  induction names generalizing d with
  | nil => cases hm
  | cons n names ih =>
    rw [List.foldl_cons]
    rcases List.nodup_cons.mp hnd with ⟨hnin, hnd'⟩
    rcases List.mem_cons.mp hm with rfl | hm'
    · rw [adFold_lookup_not_mem Nf names _ hnin]
      simp only [adEntry, hn2]
      exact lookupE_copy2Into_self _ _ hdir
    · have hne2 : m ≠ n := fun hc => hnin (hc ▸ hm')
      refine ih hnd' hm' ?_
      rw [adEntry_lookup_ne Nf d hne2]
      exact hdir

/-! ### The reconciled listing, name by name -/

/-- A name is PNG-eligible: not hidden, and its suffix lowercases to
".png". -/
def eligName (n : String) : Prop :=
  is_hidden_path n = false ∧ pyLower (pySuffix n) = ".png"

instance (n : String) : Decidable (eligName n) :=
  inferInstanceAs (Decidable (is_hidden_path n = false ∧ pyLower (pySuffix n) = ".png"))

/-- No subdirectory of the old locale folder bears the name of a new-side
eligible image; otherwise `shutil.copy2` would copy *into* that subdirectory
instead of creating the file at its path. -/
def NoDirClash (oe ne : Entries) : Prop :=
  ∀ n ∈ pngNames ne, ∀ cs : Entries, lookupE oe n ≠ some (FSNode.dir cs)

theorem mem_pngNames {es : Entries} {n : String} :
    n ∈ pngNames es ↔ ∃ c, (n, FSNode.file c) ∈ es ∧ eligName n := by
  unfold pngNames pngMap
  rw [List.mem_map]
  constructor
  · rintro ⟨p, hp, rfl⟩
    rcases mem_iter_png_files.mp hp with ⟨hmem, hh, hs⟩
    exact ⟨p.2, hmem, hh, hs⟩
  · rintro ⟨c, hmem, hh, hs⟩
    exact ⟨(n, c), mem_iter_png_files.mpr ⟨hmem, hh, hs⟩, rfl⟩

theorem eligName_of_mem_pngNames {es : Entries} {n : String} (h : n ∈ pngNames es) :
    eligName n := by
  rcases mem_pngNames.mp h with ⟨c, _, he⟩
  exact he

theorem pngAt_eq_some_iff {es : Entries} (hnd : nodupKeys es) {n : String} {c : Image} :
    List.lookup n (pngMap es) = some c ↔
      lookupE es n = some (.file c) ∧ eligName n := by
  unfold pngMap
  rw [list_lookup_eq_some_iff (nodup_keys_iter_png_files hnd)]
  rw [show ((n, c) ∈ iter_png_files (some es)) ↔ _ from mem_iter_png_files]
  constructor
  · rintro ⟨hmem, hh, hs⟩
    exact ⟨lookupE_eq_some_of_mem hnd hmem, hh, hs⟩
  · rintro ⟨hl, hh, hs⟩
    exact ⟨mem_of_lookupE_eq_some hl, hh, hs⟩

theorem mem_pngNames_of_lookup {es : Entries} (hnd : nodupKeys es) {n : String} :
    n ∈ pngNames es ↔ ∃ c, lookupE es n = some (.file c) ∧ eligName n := by
  rw [mem_pngNames]
  constructor
  · rintro ⟨c, hm, he⟩
    exact ⟨c, lookupE_eq_some_of_mem hnd hm, he⟩
  · rintro ⟨c, hl, he⟩
    exact ⟨c, mem_of_lookupE_eq_some hl, he⟩

theorem pngAt_isSome_of_mem {es : Entries} (hnd : nodupKeys es) {n : String}
    (h : n ∈ pngNames es) :
    ∃ c, List.lookup n (pngMap es) = some c ∧ lookupE es n = some (.file c) := by
  rcases (mem_pngNames_of_lookup hnd).mp h with ⟨c, hl, he⟩
  exact ⟨c, (pngAt_eq_some_iff hnd).mpr ⟨hl, he⟩, hl⟩

/-- The oracle is reflexive: a file always compares equivalent to itself
(same dimensions, identical hash, Hamming distance zero). -/
theorem same_except_time_refl (P : OracleParams) (c : Image) :
    same_except_time P c c = true := by
  unfold same_except_time
  rw [if_neg (by simp)]
  simp [hammingDist]

theorem syncDir_lookup_inter (P : OracleParams) {oe ne : Entries}
    (hoe : nodupKeys oe) {m : String}
    (hmo : m ∈ pngNames oe) (hmn : m ∈ pngNames ne) {oc nc : Image}
    (ho : List.lookup m (pngMap oe) = some oc)
    (hn2 : List.lookup m (pngMap ne) = some nc) :
    lookupE (syncDir P oe ne) m =
      if same_except_time P oc nc then some (.file oc) else some (.file nc) := by
  unfold syncDir
  have hrem : m ∉ remNames oe ne := fun hc => (mem_pySortedSetDiff.mp hc).2 hmn
  have hadd : m ∉ addNames oe ne := fun hc => (mem_pySortedSetDiff.mp hc).2 hmo
  have hinter : m ∈ interNames oe ne := mem_pySortedSetInter.mpr ⟨hmo, hmn⟩
  rw [adFold_lookup_not_mem _ _ _ hadd, rmFold_lookup_not_mem _ _ hrem]
  exact chFold_lookup_mem P _ _ (pySortedSetInter_nodup _ _) hinter ho hn2
    ((pngAt_eq_some_iff hoe).mp ho).1

theorem syncDir_lookup_rem (P : OracleParams) {oe ne : Entries}
    (hoe : nodupKeys oe) {m : String}
    (hmo : m ∈ pngNames oe) (hmn : m ∉ pngNames ne) :
    lookupE (syncDir P oe ne) m = none := by
  unfold syncDir
  have hrem : m ∈ remNames oe ne := mem_pySortedSetDiff.mpr ⟨hmo, hmn⟩
  have hadd : m ∉ addNames oe ne := fun hc => hmn (mem_pySortedSetDiff.mp hc).1
  rw [adFold_lookup_not_mem _ _ _ hadd]
  exact rmFold_lookup_mem _ (chFold_nodup _ _ _ _ hoe) hrem

theorem syncDir_lookup_add (P : OracleParams) {oe ne : Entries}
    (hcl : NoDirClash oe ne) {m : String}
    (hmo : m ∉ pngNames oe) (hmn : m ∈ pngNames ne) {nc : Image}
    (hn2 : List.lookup m (pngMap ne) = some nc) :
    lookupE (syncDir P oe ne) m = some (.file nc) := by
  unfold syncDir
  have hadd : m ∈ addNames oe ne := mem_pySortedSetDiff.mpr ⟨hmn, hmo⟩
  have hinter : m ∉ interNames oe ne := fun hc => hmo (mem_pySortedSetInter.mp hc).1
  have hrem : m ∉ remNames oe ne := fun hc => hmo (mem_pySortedSetDiff.mp hc).1
  refine adFold_lookup_mem _ (pySortedSetDiff_nodup _ _) hadd hn2 ?_
  intro cs
  rw [rmFold_lookup_not_mem _ _ hrem, chFold_lookup_not_mem _ _ _ _ _ hinter]
  exact hcl m hmn cs

theorem syncDir_lookup_other (P : OracleParams) {oe ne : Entries} {m : String}
    (hmo : m ∉ pngNames oe) (hmn : m ∉ pngNames ne) :
    lookupE (syncDir P oe ne) m = lookupE oe m := by
  unfold syncDir
  have hinter : m ∉ interNames oe ne := fun hc => hmo (mem_pySortedSetInter.mp hc).1
  have hrem : m ∉ remNames oe ne := fun hc => hmo (mem_pySortedSetDiff.mp hc).1
  have hadd : m ∉ addNames oe ne := fun hc => hmn (mem_pySortedSetDiff.mp hc).1
  rw [adFold_lookup_not_mem _ _ _ hadd, rmFold_lookup_not_mem _ _ hrem,
    chFold_lookup_not_mem _ _ _ _ _ hinter]

theorem syncDir_nodup (P : OracleParams) {oe ne : Entries} (hoe : nodupKeys oe) :
    nodupKeys (syncDir P oe ne) := by
  unfold syncDir
  exact adFold_nodup _ _ (rmFold_nodup _ (chFold_nodup _ _ _ _ hoe))

theorem syncDir_pngNames_iff (P : OracleParams) {oe ne : Entries}
    (hoe : nodupKeys oe) (hne : nodupKeys ne) (hcl : NoDirClash oe ne) (m : String) :
    m ∈ pngNames (syncDir P oe ne) ↔ m ∈ pngNames ne := by
  rw [mem_pngNames_of_lookup (syncDir_nodup P hoe)]
  constructor
  · rintro ⟨c, hl, he⟩
    by_cases hmn : m ∈ pngNames ne
    · exact hmn
    · by_cases hmo : m ∈ pngNames oe
      · rw [syncDir_lookup_rem P hoe hmo hmn] at hl
        cases hl
      · rw [syncDir_lookup_other P hmo hmn] at hl
        exact absurd ((mem_pngNames_of_lookup hoe).mpr ⟨c, hl, he⟩) hmo
  · intro hmn
    have he : eligName m := eligName_of_mem_pngNames hmn
    rcases pngAt_isSome_of_mem hne hmn with ⟨nc, hn2, _⟩
    by_cases hmo : m ∈ pngNames oe
    · rcases pngAt_isSome_of_mem hoe hmo with ⟨oc, ho, _⟩
      by_cases hs : same_except_time P oc nc = true
      · exact ⟨oc, by rw [syncDir_lookup_inter P hoe hmo hmn ho hn2, if_pos hs], he⟩
      · exact ⟨nc, by rw [syncDir_lookup_inter P hoe hmo hmn ho hn2, if_neg hs], he⟩
    · exact ⟨nc, syncDir_lookup_add P hcl hmo hmn hn2, he⟩

theorem syncDir_equiv_new (P : OracleParams) {oe ne : Entries}
    (hoe : nodupKeys oe) (hne : nodupKeys ne) (hcl : NoDirClash oe ne) {m : String}
    (hmn : m ∈ pngNames ne) :
    ∃ c nc, lookupE (syncDir P oe ne) m = some (.file c) ∧
      List.lookup m (pngMap ne) = some nc ∧ same_except_time P c nc = true := by
  rcases pngAt_isSome_of_mem hne hmn with ⟨nc, hn2, _⟩
  by_cases hmo : m ∈ pngNames oe
  · rcases pngAt_isSome_of_mem hoe hmo with ⟨oc, ho, _⟩
    by_cases hs : same_except_time P oc nc = true
    · exact ⟨oc, nc, by rw [syncDir_lookup_inter P hoe hmo hmn ho hn2, if_pos hs], hn2, hs⟩
    · exact ⟨nc, nc, by rw [syncDir_lookup_inter P hoe hmo hmn ho hn2, if_neg hs], hn2,
        same_except_time_refl P nc⟩
  · exact ⟨nc, nc, syncDir_lookup_add P hcl hmo hmn hn2, hn2, same_except_time_refl P nc⟩

theorem syncDir_dir_preserved (P : OracleParams) {oe ne : Entries}
    (hoe : nodupKeys oe) (hne : nodupKeys ne) (hcl : NoDirClash oe ne) {m : String}
    {cs : Entries} (h : lookupE (syncDir P oe ne) m = some (.dir cs)) :
    lookupE oe m = some (.dir cs) := by
  by_cases hmn : m ∈ pngNames ne
  · by_cases hmo : m ∈ pngNames oe
    · rcases pngAt_isSome_of_mem hoe hmo with ⟨oc, ho, _⟩
      rcases pngAt_isSome_of_mem hne hmn with ⟨nc, hn2, _⟩
      rw [syncDir_lookup_inter P hoe hmo hmn ho hn2] at h
      by_cases hs : same_except_time P oc nc = true
      · rw [if_pos hs] at h
        cases h
      · rw [if_neg hs] at h
        cases h
    · rcases pngAt_isSome_of_mem hne hmn with ⟨nc, hn2, _⟩
      rw [syncDir_lookup_add P hcl hmo hmn hn2] at h
      cases h
  · by_cases hmo : m ∈ pngNames oe
    · rw [syncDir_lookup_rem P hoe hmo hmn] at h
      cases h
    · rw [syncDir_lookup_other P hmo hmn] at h
      exact h

/-! ### Frame properties of one locale's reconciliation -/

/-- All mutations of one locale's reconciliation stay inside the old-side
entry of that locale: the NEW root is untouched and every other old-side
entry keeps its binding. -/
def OldFrame (L : String) (fs fs' : FS) : Prop :=
  fs'.newRoot = fs.newRoot ∧
    ∀ M, M ≠ L → lookupE fs'.oldRoot M = lookupE fs.oldRoot M

theorem OldFrame.refl (L : String) (fs : FS) : OldFrame L fs fs :=
  ⟨rfl, fun _ _ => rfl⟩

theorem OldFrame.trans {L : String} {fs1 fs2 fs3 : FS}
    (h1 : OldFrame L fs1 fs2) (h2 : OldFrame L fs2 fs3) : OldFrame L fs1 fs3 :=
  ⟨h2.1.trans h1.1, fun M hM => (h2.2 M hM).trans (h1.2 M hM)⟩

theorem copy_file_OldFrame (L : String) (fs : FS) (srcName : String) (c : Image)
    (n : String) : OldFrame L fs (copy_file fs srcName c ⟨⟨Side.old, L⟩, n⟩) :=
  ⟨copy_file_newRoot fs srcName c L n, fun _ hM => copy_file_lookup_ne fs srcName c n hM⟩

theorem remove_file_OldFrame (L : String) (fs : FS) (n : String) :
    OldFrame L fs (remove_file fs ⟨⟨Side.old, L⟩, n⟩) :=
  ⟨remove_file_newRoot fs L n, fun _ hM => remove_file_lookup_ne fs n hM⟩

theorem mkdirP_OldFrame {fs fs' : FS} {L : String}
    (h : mkdirP fs ⟨Side.old, L⟩ = some fs') : OldFrame L fs fs' :=
  ⟨mkdirP_newRoot h, fun _ hM => mkdirP_lookup_ne h hM⟩

theorem foldl_OldFrame {α β : Type} (L : String) (pr : β → FS) (f : β → α → β)
    (hstep : ∀ b a, OldFrame L (pr b) (pr (f b a))) (l : List α) (b : β) :
    OldFrame L (pr b) (pr (l.foldl f b)) := by
  induction l generalizing b with
  | nil => exact OldFrame.refl L (pr b)
  | cons a l ih => exact (hstep b a).trans (ih (f b a))

theorem changedStep_OldFrame (P : OracleParams) (L : String)
    (O Nf : List (String × Image)) (acc : LocaleStats × FS) (n : String) :
    OldFrame L acc.2 (changedStep P ⟨Side.old, L⟩ O Nf acc n).2 := by
  rcases ho : List.lookup n O with _ | oc
  · simp only [changedStep, ho]
    exact OldFrame.refl _ _
  · rcases hn : List.lookup n Nf with _ | nc
    · simp only [changedStep, ho, hn]
      exact OldFrame.refl _ _
    · simp only [changedStep, ho, hn]
      by_cases hs : same_except_time P oc nc = true
      · rw [if_pos hs]
        exact OldFrame.refl _ _
      · rw [if_neg hs]
        exact copy_file_OldFrame L acc.2 n nc n

theorem removedStep_OldFrame (L : String) (acc : LocaleStats × FS) (n : String) :
    OldFrame L acc.2 (removedStep ⟨Side.old, L⟩ acc n).2 :=
  remove_file_OldFrame L acc.2 n

theorem addedStep_OldFrame (L : String) (Nf : List (String × Image))
    (acc : LocaleStats × FS) (n : String) :
    OldFrame L acc.2 (addedStep ⟨Side.old, L⟩ Nf acc n).2 := by
  rcases hn : List.lookup n Nf with _ | nc
  · simp only [addedStep, hn]
    exact OldFrame.refl _ _
  · simp only [addedStep, hn]
    exact copy_file_OldFrame L acc.2 n nc n

theorem copyAllStep_OldFrame (L : String) (acc : FS × Nat) (e : String × Image) :
    OldFrame L acc.1 (copyAllStep L acc e).1 :=
  copy_file_OldFrame L acc.1 e.1 e.2 e.1

theorem sync_locale_OldFrame (P : OracleParams) (fs : FS) (L : String)
    (nl : Option DirPath) : OldFrame L fs (sync_locale P fs ⟨Side.old, L⟩ nl).2 := by
  match nl with
  | none => exact OldFrame.refl _ _
  | some nl =>
    by_cases hex : pathExistsD fs nl = false
    · rw [sync_locale_notexists P fs _ hex]
      exact OldFrame.refl _ _
    · simp only [sync_locale]
      rw [if_neg hex]
      exact (foldl_OldFrame L Prod.snd _ (changedStep_OldFrame P L _ _) _ _).trans
        ((foldl_OldFrame L Prod.snd _ (removedStep_OldFrame L) _ _).trans
          (foldl_OldFrame L Prod.snd _ (addedStep_OldFrame L _) _ _))

/-- The statistics returned by `sync_locale` when the new-side path exists,
with no well-formedness assumptions at all. -/
theorem sync_locale_stats_eq (P : OracleParams) (fs : FS) (ol : DirPath) {nl : DirPath}
    (hex : pathExistsD fs nl = true) :
    (sync_locale P fs ol (some nl)).1 =
      { locale := ol.name
        changed := (pySortedSetInter ((iter_png_files (fs.dirAt ol)).map Prod.fst)
            ((iter_png_files (fs.dirAt nl)).map Prod.fst)).countP
            (chPred P (iter_png_files (fs.dirAt ol)) (iter_png_files (fs.dirAt nl)))
        added := (pySortedSetDiff ((iter_png_files (fs.dirAt nl)).map Prod.fst)
            ((iter_png_files (fs.dirAt ol)).map Prod.fst)).countP
            (fun n => (List.lookup n (iter_png_files (fs.dirAt nl))).isSome)
        removed := (pySortedSetDiff ((iter_png_files (fs.dirAt ol)).map Prod.fst)
            ((iter_png_files (fs.dirAt nl)).map Prod.fst)).length
        removed_files := (pySortedSetDiff ((iter_png_files (fs.dirAt ol)).map Prod.fst)
            ((iter_png_files (fs.dirAt nl)).map Prod.fst)).map
            (fun n => ol.name ++ "/" ++ n) } := by
  simp only [sync_locale, hex]
  rw [if_neg (by decide : ¬(true = false))]
  rw [addedPass_stats, removedPass_stats, changedPass_stats]
  simp

/-! ### A converged locale re-syncs as a no-op -/

theorem setE_of_lookupE_none {es : Entries} {n : String} (v : FSNode)
    (h : lookupE es n = none) : setE n v es = es ++ [(n, v)] := by
  induction es with
  | nil => rfl
  | cons e es ih =>
    obtain ⟨a, w⟩ := e
    by_cases he : a = n
    · rw [lookupE_cons, if_pos he] at h
      cases h
    · rw [lookupE_cons, if_neg he] at h
      rw [setE_cons, if_neg he, ih h, List.cons_append]

theorem pySortedSetDiff_eq_nil {a b : List String} (h : ∀ x ∈ a, x ∈ b) :
    pySortedSetDiff a b = [] := by
  unfold pySortedSetDiff sortStrs
  have hf : a.filter (fun x => !decide (x ∈ b)) = [] := by
    rw [List.filter_eq_nil_iff]
    intro x hx
    simp [h x hx]
  rw [hf]
  rfl

theorem chFold_id (P : OracleParams) (O Nf : List (String × Image)) {names : List String}
    (h : ∀ n ∈ names, ∃ oc nc, List.lookup n O = some oc ∧ List.lookup n Nf = some nc ∧
      same_except_time P oc nc = true) (d : Entries) :
    names.foldl (chEntry P O Nf) d = d := by
  induction names with
  | nil => rfl
  | cons n names ih =>
    rcases h n (List.mem_cons_self _ _) with ⟨oc, nc, ho, hn2, hs⟩
    rw [List.foldl_cons]
    have he : chEntry P O Nf d n = d := by
      simp only [chEntry, ho, hn2]
      rw [if_pos hs]
    rw [he]
    exact ih (fun m hm => h m (List.mem_cons_of_mem _ hm))

theorem syncDir_id (P : OracleParams) {oe ne : Entries} (hoe : nodupKeys oe)
    (hequiv : ∀ n ∈ pngNames ne, ∃ c nc, lookupE oe n = some (.file c) ∧
      List.lookup n (pngMap ne) = some nc ∧ same_except_time P c nc = true)
    (hsub : ∀ n ∈ pngNames oe, n ∈ pngNames ne)
    (hsub2 : ∀ n ∈ pngNames ne, n ∈ pngNames oe) :
    syncDir P oe ne = oe := by
  unfold syncDir remNames addNames
  rw [pySortedSetDiff_eq_nil hsub, pySortedSetDiff_eq_nil hsub2]
  refine chFold_id P _ _ ?_ oe
  intro n hn
  have hnn : n ∈ pngNames ne := (mem_pySortedSetInter.mp hn).2
  rcases hequiv n hnn with ⟨c, nc, hl, hn2, hs⟩
  exact ⟨c, nc, (pngAt_eq_some_iff hoe).mpr ⟨hl, eligName_of_mem_pngNames hnn⟩, hn2, hs⟩

theorem syncStats_zero (P : OracleParams) (L : String) {oe ne : Entries}
    (hoe : nodupKeys oe)
    (hequiv : ∀ n ∈ pngNames ne, ∃ c nc, lookupE oe n = some (.file c) ∧
      List.lookup n (pngMap ne) = some nc ∧ same_except_time P c nc = true)
    (hsub : ∀ n ∈ pngNames oe, n ∈ pngNames ne)
    (hsub2 : ∀ n ∈ pngNames ne, n ∈ pngNames oe) :
    syncStats P L oe ne = { locale := L } := by
  unfold syncStats remNames addNames
  rw [pySortedSetDiff_eq_nil hsub, pySortedSetDiff_eq_nil hsub2]
  have hch : (interNames oe ne).countP (chPred P (pngMap oe) (pngMap ne)) = 0 := by
    rw [List.countP_eq_zero]
    intro n hn
    have hnn : n ∈ pngNames ne := (mem_pySortedSetInter.mp hn).2
    rcases hequiv n hnn with ⟨c, nc, hl, hn2, hs⟩
    have ho : List.lookup n (pngMap oe) = some c :=
      (pngAt_eq_some_iff hoe).mpr ⟨hl, eligName_of_mem_pngNames hnn⟩
    simp [chPred, ho, hn2, hs]
  rw [hch]
  rfl

theorem sync_locale_noop (P : OracleParams) {fs : FS} {M : String} {d ne : Entries}
    (hol : lookupE fs.oldRoot M = some (.dir d))
    (hnl : lookupE fs.newRoot M = some (.dir ne))
    (hd : nodupKeys d)
    (hequiv : ∀ n ∈ pngNames ne, ∃ c nc, lookupE d n = some (.file c) ∧
      List.lookup n (pngMap ne) = some nc ∧ same_except_time P c nc = true)
    (hsub : ∀ n ∈ pngNames d, n ∈ pngNames ne)
    (hsub2 : ∀ n ∈ pngNames ne, n ∈ pngNames d) :
    sync_locale P fs ⟨Side.old, M⟩ (some ⟨Side.new, M⟩) = ({ locale := M }, fs) := by
  rw [sync_locale_eq P hol hnl, syncStats_zero P M hd hequiv hsub hsub2,
    syncDir_id P hd hequiv hsub hsub2, setOldDir_self hol]

/-! ### The bootstrap of a NEW-only locale -/

/-- One copy of the NEW-only loop, at the listing level. -/
def cpEntry (d : Entries) (e : String × Image) : Entries := copy2Into d e.1 e.1 e.2

/-- The listing of a freshly bootstrapped old-side locale folder: exactly the
new side's eligible files, in enumeration order. -/
def bootDir (ne : Entries) : Entries := (pngMap ne).foldl cpEntry []

theorem cpFold_append {pairs : List (String × Image)} {d : Entries}
    (hdisj : ∀ e ∈ pairs, e.1 ∉ ekeys d) (hnd : (pairs.map Prod.fst).Nodup) :
    pairs.foldl cpEntry d = d ++ pairs.map (fun e => (e.1, FSNode.file e.2)) := by
  induction pairs generalizing d with
  | nil => simp
  | cons e pairs ih =>
    rw [List.foldl_cons]
    have hnone : lookupE d e.1 = none :=
      lookupE_none_iff_not_mem_ekeys.mpr (hdisj e (List.mem_cons_self _ _))
    have hstep : cpEntry d e = d ++ [(e.1, FSNode.file e.2)] := by
      unfold cpEntry copy2Into
      rw [hnone]
      exact setE_of_lookupE_none _ hnone
    rw [hstep]
    rcases List.nodup_cons.mp (by rw [List.map_cons] at hnd; exact hnd) with ⟨hnin, hnd'⟩
    rw [ih ?_ hnd']
    · simp
    · intro e2 he2 hc
      rw [show ekeys (d ++ [(e.1, FSNode.file e.2)]) = ekeys d ++ [e.1] by
        simp [ekeys]] at hc
      rcases List.mem_append.mp hc with hc2 | hc2
      · exact hdisj e2 (List.mem_cons_of_mem _ he2) hc2
      · rcases List.mem_singleton.mp hc2 with hc3
        exact hnin (hc3 ▸ List.mem_map_of_mem Prod.fst he2)

theorem sorted_iter_png_files (x : Option Entries) :
    List.Sorted nameLe (iter_png_files x) := by
  match x with
  | none => exact List.sorted_nil
  | some es => exact sortByName_sorted _

theorem bootDir_eq {ne : Entries} (hne : nodupKeys ne) :
    bootDir ne = (pngMap ne).map (fun e => (e.1, FSNode.file e.2)) := by
  unfold bootDir pngMap
  rw [cpFold_append (fun e _ hc => (List.not_mem_nil _ hc)) (nodup_keys_iter_png_files hne)]
  rfl

theorem bootDir_nodup {ne : Entries} (hne : nodupKeys ne) : nodupKeys (bootDir ne) := by
  rw [bootDir_eq hne]
  unfold nodupKeys ekeys
  rw [List.map_map]
  exact nodup_keys_iter_png_files hne

theorem bootDir_lookup {ne : Entries} (hne : nodupKeys ne) {m : String} {c : Image}
    (h : List.lookup m (pngMap ne) = some c) :
    lookupE (bootDir ne) m = some (.file c) := by
  have hnd : nodupKeys (bootDir ne) := bootDir_nodup hne
  rw [bootDir_eq hne] at hnd ⊢
  exact lookupE_eq_some_of_mem hnd
    (List.mem_map_of_mem _
      ((list_lookup_eq_some_iff (nodup_keys_iter_png_files hne)).mp h))

theorem bootDir_no_dir {ne : Entries} (hne : nodupKeys ne) (m : String) (cs : Entries) :
    lookupE (bootDir ne) m ≠ some (.dir cs) := by
  rw [bootDir_eq hne]
  intro h
  rcases List.mem_map.mp (mem_of_lookupE_eq_some h) with ⟨e, _, he⟩
  simp at he

theorem filterMap_id_of_mem {α : Type} (f : α → Option α) {l : List α}
    (h : ∀ a ∈ l, f a = some a) : l.filterMap f = l := by
  induction l with
  | nil => rfl
  | cons a l ih =>
    rw [List.filterMap_cons_some (h a (List.mem_cons_self _ _)),
      ih (fun b hb => h b (List.mem_cons_of_mem _ hb))]

theorem iter_png_files_of_files {l : List (String × Image)}
    (hall : ∀ p ∈ l, eligName p.1) (hsorted : List.Sorted nameLe l) :
    iter_png_files (some (l.map (fun e => (e.1, FSNode.file e.2)))) = l := by
  unfold iter_png_files
  dsimp only
  have hfm : (l.map (fun e => (e.1, FSNode.file e.2))).filterMap
      (fun e => match e.2 with
        | FSNode.file c =>
            if !is_hidden_path e.1 && (pyLower (pySuffix e.1) == ".png") then some (e.1, c)
            else none
        | FSNode.dir _ => none) = l := by
    induction l with
    | nil => rfl
    | cons p l ih =>
      rcases hall p (List.mem_cons_self _ _) with ⟨hh, hs⟩
      rw [List.map_cons, List.filterMap_cons]
      dsimp only
      rw [if_pos ((Bool.and_eq_true _ _).symm ▸
        ⟨(Bool.not_eq_true' _).symm ▸ hh, beq_of_eq hs⟩)]
      dsimp only
      rw [Prod.mk.eta, ih (fun q hq => hall q (List.mem_cons_of_mem _ hq)) hsorted.of_cons]
  rw [hfm]
  exact hsorted.insertionSort_eq

theorem iter_png_files_bootDir {ne : Entries} (hne : nodupKeys ne) :
    iter_png_files (some (bootDir ne)) = iter_png_files (some ne) := by
  rw [bootDir_eq hne]
  exact iter_png_files_of_files
    (fun p hp => eligName_of_mem_pngNames (List.mem_map_of_mem Prod.fst hp))
    (sorted_iter_png_files (some ne))

/-! ### The first `sync_all` loop -/

theorem loc_loop_master (P : OracleParams) (nk : List String) (locs : List String)
    (hnd : locs.Nodup) (acc : SyncAcc)
    (hold : ∀ l ∈ locs, ∃ oe, lookupE acc.fs.oldRoot l = some (.dir oe))
    (hnew : ∀ l ∈ locs, l ∈ nk → ∃ ne, lookupE acc.fs.newRoot l = some (.dir ne)) :
    (locs.foldl (locStep P nk) acc).fs.newRoot = acc.fs.newRoot ∧
    ekeys (locs.foldl (locStep P nk) acc).fs.oldRoot = ekeys acc.fs.oldRoot ∧
    (nodupKeys acc.fs.oldRoot → nodupKeys (locs.foldl (locStep P nk) acc).fs.oldRoot) ∧
    (∀ M, M ∉ locs →
      lookupE (locs.foldl (locStep P nk) acc).fs.oldRoot M = lookupE acc.fs.oldRoot M) ∧
    (∀ M ∈ locs, M ∉ nk →
      lookupE (locs.foldl (locStep P nk) acc).fs.oldRoot M = lookupE acc.fs.oldRoot M) ∧
    (∀ M ∈ locs, M ∈ nk → ∀ oe ne,
      lookupE acc.fs.oldRoot M = some (.dir oe) →
      lookupE acc.fs.newRoot M = some (.dir ne) →
      lookupE (locs.foldl (locStep P nk) acc).fs.oldRoot M =
        some (.dir (syncDir P oe ne))) := by
  induction locs generalizing acc with
  | nil =>
    exact ⟨rfl, rfl, id, fun M _ => rfl,
      fun M hM => absurd hM (List.not_mem_nil M),
      fun M hM => absurd hM (List.not_mem_nil M)⟩
  | cons l locs ih =>
    rcases List.nodup_cons.mp hnd with ⟨hlnin, hnd'⟩
    rw [List.foldl_cons]
    by_cases hlnk : l ∈ nk
    · rcases hold l (List.mem_cons_self _ _) with ⟨oe, hoe⟩
      rcases hnew l (List.mem_cons_self _ _) hlnk with ⟨ne, hne⟩
      have hfs : (locStep P nk acc l).fs = setOldDir acc.fs l (syncDir P oe ne) := by
        simp only [locStep, if_pos hlnk]
        rw [sync_locale_eq P hoe hne]
      have hnewr : (locStep P nk acc l).fs.newRoot = acc.fs.newRoot := by
        rw [hfs]
        rfl
      have hold' : ∀ l2 ∈ locs, ∃ oe2,
          lookupE (locStep P nk acc l).fs.oldRoot l2 = some (.dir oe2) := by
        intro l2 h2
        rw [hfs, setOldDir_oldRoot,
          lookupE_setE_ne _ _ (show l2 ≠ l by intro hc; subst hc; exact hlnin h2)]
        exact hold l2 (List.mem_cons_of_mem _ h2)
      have hnew' : ∀ l2 ∈ locs, l2 ∈ nk → ∃ ne2,
          lookupE (locStep P nk acc l).fs.newRoot l2 = some (.dir ne2) := by
        intro l2 h2 hk2
        rw [hnewr]
        exact hnew l2 (List.mem_cons_of_mem _ h2) hk2
      obtain ⟨c1, c2, c3, c4, c5, c6⟩ := ih hnd' (locStep P nk acc l) hold' hnew'
      refine ⟨c1.trans hnewr, ?_, ?_, ?_, ?_, ?_⟩
      · rw [c2, hfs, setOldDir_oldRoot, ekeys_setE_of_isSome _ (by simp [hoe])]
      · intro h
        refine c3 ?_
        rw [hfs, setOldDir_oldRoot]
        exact nodupKeys_setE _ h
      · intro M hM
        have hMl : M ≠ l := fun hc => hM (hc ▸ List.mem_cons_self _ _)
        have hMlocs : M ∉ locs := fun hc => hM (List.mem_cons_of_mem _ hc)
        rw [c4 M hMlocs, hfs, setOldDir_oldRoot, lookupE_setE_ne _ _ hMl]
      · intro M hM hMnk
        rcases List.mem_cons.mp hM with rfl | hM'
        · exact absurd hlnk hMnk
        · have hMl : M ≠ l := fun hc => hlnin (hc ▸ hM')
          rw [c5 M hM' hMnk, hfs, setOldDir_oldRoot, lookupE_setE_ne _ _ hMl]
      · intro M hM hMnk oe2 ne2 h1 h2
        rcases List.mem_cons.mp hM with rfl | hM'
        · rw [hoe] at h1
          injection h1 with h1
          injection h1 with h1
          subst h1
          rw [hne] at h2
          injection h2 with h2
          injection h2 with h2
          subst h2
          rw [c4 M hlnin, hfs, setOldDir_oldRoot, lookupE_setE_self]
        · have hMl : M ≠ l := fun hc => hlnin (hc ▸ hM')
          refine c6 M hM' hMnk oe2 ne2 ?_ ?_
          · rw [hfs, setOldDir_oldRoot, lookupE_setE_ne _ _ hMl]
            exact h1
          · rw [hnewr]
            exact h2
    · have hfs : (locStep P nk acc l).fs = acc.fs := by
        simp only [locStep, if_neg hlnk]
        rw [sync_locale_missing]
      have hold' : ∀ l2 ∈ locs, ∃ oe2,
          lookupE (locStep P nk acc l).fs.oldRoot l2 = some (.dir oe2) := by
        intro l2 h2
        rw [hfs]
        exact hold l2 (List.mem_cons_of_mem _ h2)
      have hnew' : ∀ l2 ∈ locs, l2 ∈ nk → ∃ ne2,
          lookupE (locStep P nk acc l).fs.newRoot l2 = some (.dir ne2) := by
        intro l2 h2 hk2
        rw [hfs]
        exact hnew l2 (List.mem_cons_of_mem _ h2) hk2
      obtain ⟨c1, c2, c3, c4, c5, c6⟩ := ih hnd' (locStep P nk acc l) hold' hnew'
      refine ⟨c1.trans (by rw [hfs]), c2.trans (by rw [hfs]), ?_, ?_, ?_, ?_⟩
      · intro h
        refine c3 ?_
        rw [hfs]
        exact h
      · intro M hM
        have hMlocs : M ∉ locs := fun hc => hM (List.mem_cons_of_mem _ hc)
        rw [c4 M hMlocs, hfs]
      · intro M hM hMnk
        rcases List.mem_cons.mp hM with rfl | hM'
        · rw [c4 M hlnin, hfs]
        · rw [c5 M hM' hMnk, hfs]
      · intro M hM hMnk oe2 ne2 h1 h2
        rcases List.mem_cons.mp hM with rfl | hM'
        · exact absurd hMnk hlnk
        · refine c6 M hM' hMnk oe2 ne2 ?_ ?_
          · rw [hfs]
            exact h1
          · rw [hfs]
            exact h2

/-! ### The second `sync_all` loop -/

theorem copyAll_fold_count (L : String) (l : List (String × Image)) (acc : FS × Nat) :
    (l.foldl (copyAllStep L) acc).2 = acc.2 + l.length := by
  induction l generalizing acc with
  | nil => rfl
  | cons e l ih =>
    rw [List.foldl_cons, ih]
    simp only [copyAllStep, List.length_cons]
    omega

theorem copyAll_fold_newRoot (L : String) (l : List (String × Image)) (acc : FS × Nat) :
    (l.foldl (copyAllStep L) acc).1.newRoot = acc.1.newRoot := by
  induction l generalizing acc with
  | nil => rfl
  | cons e l ih =>
    rw [List.foldl_cons]
    exact (ih (copyAllStep L acc e)).trans (copy_file_newRoot acc.1 e.1 e.2 L e.1)

theorem copyAll_fold_lookup_ne {L M : String} (h : M ≠ L) (l : List (String × Image))
    (acc : FS × Nat) :
    lookupE (l.foldl (copyAllStep L) acc).1.oldRoot M = lookupE acc.1.oldRoot M := by
  induction l generalizing acc with
  | nil => rfl
  | cons e l ih =>
    rw [List.foldl_cons]
    exact (ih (copyAllStep L acc e)).trans (copy_file_lookup_ne acc.1 e.1 e.2 e.1 h)

theorem copyAll_fold_dir {L : String} {fs : FS} {d : Entries}
    (h : lookupE fs.oldRoot L = some (.dir d)) (l : List (String × Image)) (k : Nat) :
    (l.foldl (copyAllStep L) (fs, k)).1 = setOldDir fs L (l.foldl cpEntry d) := by
  induction l generalizing fs d k with
  | nil => exact (setOldDir_self h).symm
  | cons e l ih =>
    rw [List.foldl_cons, List.foldl_cons]
    have h1 : copyAllStep L (fs, k) e = (setOldDir fs L (cpEntry d e), k + 1) := by
      unfold copyAllStep cpEntry
      dsimp only
      rw [copy_file_old_dir h e.1 e.2 e.1]
    rw [h1, ih (lookupE_setOldDir_self fs L _) (k + 1), setOldDir_setOldDir]

theorem newOnlyStep_dead {acc : SyncAcc × Bool} (h : acc.2 = false) (l : String) :
    newOnlyStep acc l = acc := by
  simp only [newOnlyStep, h]

theorem newOnly_loop_dead {acc : SyncAcc × Bool} (h : acc.2 = false) (locs : List String) :
    locs.foldl newOnlyStep acc = acc := by
  induction locs with
  | nil => rfl
  | cons l locs ih =>
    rw [List.foldl_cons, newOnlyStep_dead h l]
    exact ih

theorem newOnlyStep_newRoot (acc : SyncAcc × Bool) (l : String) :
    (newOnlyStep acc l).1.fs.newRoot = acc.1.fs.newRoot := by
  cases h2 : acc.2 with
  | false => rw [newOnlyStep_dead h2]
  | true =>
    rcases hm : mkdirP acc.1.fs ⟨Side.old, l⟩ with _ | fs1
    · simp only [newOnlyStep, h2, hm]
    · simp only [newOnlyStep, h2, hm]
      exact (copyAll_fold_newRoot l _ _).trans (mkdirP_newRoot hm)

theorem newOnlyStep_lookup_ne {M : String} (acc : SyncAcc × Bool) {l : String}
    (h : M ≠ l) :
    lookupE (newOnlyStep acc l).1.fs.oldRoot M = lookupE acc.1.fs.oldRoot M := by
  cases h2 : acc.2 with
  | false => rw [newOnlyStep_dead h2]
  | true =>
    rcases hm : mkdirP acc.1.fs ⟨Side.old, l⟩ with _ | fs1
    · simp only [newOnlyStep, h2, hm]
    · simp only [newOnlyStep, h2, hm]
      exact (copyAll_fold_lookup_ne h _ _).trans (mkdirP_lookup_ne hm h)

theorem newOnlyStep_warnings (acc : SyncAcc × Bool) (l : String) :
    (newOnlyStep acc l).1.warnings = acc.1.warnings := by
  cases h2 : acc.2 with
  | false => rw [newOnlyStep_dead h2]
  | true =>
    rcases hm : mkdirP acc.1.fs ⟨Side.old, l⟩ with _ | fs1
    · simp only [newOnlyStep, h2, hm]
    · simp only [newOnlyStep, h2, hm]

theorem newOnly_loop_warnings (locs : List String) (acc : SyncAcc × Bool) :
    (locs.foldl newOnlyStep acc).1.warnings = acc.1.warnings := by
  induction locs generalizing acc with
  | nil => rfl
  | cons l locs ih =>
    rw [List.foldl_cons]
    exact (ih _).trans (newOnlyStep_warnings acc l)

/-! ### Warnings of the first loop -/

theorem locStep_warnings_mem (P : OracleParams) (nk : List String) (acc : SyncAcc)
    (l : String) {s : String} (h : s ∈ acc.warnings) :
    s ∈ (locStep P nk acc l).warnings := by
  simp only [locStep]
  exact List.mem_append_left _ h

theorem loc_loop_warnings_mem (P : OracleParams) (nk : List String) (locs : List String)
    (acc : SyncAcc) {s : String} (h : s ∈ acc.warnings) :
    s ∈ (locs.foldl (locStep P nk) acc).warnings := by
  induction locs generalizing acc with
  | nil => exact h
  | cons l locs ih =>
    rw [List.foldl_cons]
    exact ih _ (locStep_warnings_mem P nk acc l h)

theorem loc_loop_warning_of_missing (P : OracleParams) (nk : List String)
    {locs : List String} {l : String} (hmem : l ∈ locs) (hnk : l ∉ nk)
    (acc : SyncAcc) :
    ("Locale folder missing in NEW (kept as-is): " ++ l) ∈
      (locs.foldl (locStep P nk) acc).warnings := by
  induction locs generalizing acc with
  | nil => exact absurd hmem (List.not_mem_nil l)
  | cons m locs ih =>
    rw [List.foldl_cons]
    rcases List.mem_cons.mp hmem with rfl | hmem'
    · refine loc_loop_warnings_mem P nk locs _ ?_
      simp only [locStep]
      rw [if_neg hnk, sync_locale_missing]
      simp
    · exact ih hmem' _

/-! ### The totals are the sums of the per-locale entries -/

/-- The componentwise sums of a list of per-locale statistics. -/
def statsSum (l : List LocaleStats) : Totals :=
  { changed := (l.map LocaleStats.changed).sum
    added := (l.map LocaleStats.added).sum
    removed := (l.map LocaleStats.removed).sum }

/-- The report invariant: the running totals are the sums of the recorded
per-locale entries. -/
def TotalsOK (acc : SyncAcc) : Prop := acc.totals = statsSum acc.stats_list

theorem statsSum_append (l : List LocaleStats) (s : LocaleStats) :
    statsSum (l ++ [s]) =
      { changed := (statsSum l).changed + s.changed
        added := (statsSum l).added + s.added
        removed := (statsSum l).removed + s.removed } := by
  simp [statsSum]

theorem locStep_TotalsOK (P : OracleParams) (nk : List String) {acc : SyncAcc}
    (h : TotalsOK acc) (l : String) : TotalsOK (locStep P nk acc l) := by
  unfold TotalsOK at h ⊢
  simp only [locStep]
  rw [statsSum_append, ← h]

theorem newOnlyStep_TotalsOK {acc : SyncAcc × Bool} (h : TotalsOK acc.1) (l : String) :
    TotalsOK (newOnlyStep acc l).1 := by
  cases h2 : acc.2 with
  | false =>
    rw [newOnlyStep_dead h2]
    exact h
  | true =>
    rcases hm : mkdirP acc.1.fs ⟨Side.old, l⟩ with _ | fs1
    · simp only [newOnlyStep, h2, hm]
      exact h
    · unfold TotalsOK at h ⊢
      simp only [newOnlyStep, h2, hm]
      rw [statsSum_append, ← h]
      simp

theorem loc_loop_TotalsOK (P : OracleParams) (nk : List String) (locs : List String)
    {acc : SyncAcc} (h : TotalsOK acc) :
    TotalsOK (locs.foldl (locStep P nk) acc) := by
  induction locs generalizing acc with
  | nil => exact h
  | cons l locs ih =>
    rw [List.foldl_cons]
    exact ih (locStep_TotalsOK P nk h l)

theorem newOnly_loop_TotalsOK (locs : List String) {acc : SyncAcc × Bool}
    (h : TotalsOK acc.1) :
    TotalsOK (locs.foldl newOnlyStep acc).1 := by
  induction locs generalizing acc with
  | nil => exact h
  | cons l locs ih =>
    rw [List.foldl_cons]
    exact ih (newOnlyStep_TotalsOK h l)

theorem sync_all_TotalsOK (P : OracleParams) (fs0 : FS) :
    TotalsOK (sync_all P fs0).1 := by
  simp only [sync_all]
  refine newOnly_loop_TotalsOK _ ?_
  refine loc_loop_TotalsOK P _ _ ?_
  unfold TotalsOK
  rfl

/-! ### The stats-consistency invariant -/

/-- The internal-consistency invariant of one statistics record: `removed`
counts `removed_files`, every recorded path is `"locale/filename"` for the
record's own locale, and a missing-in-new record deletes nothing. -/
def StatsOK (s : LocaleStats) : Prop :=
  s.removed = s.removed_files.length ∧
  (∀ f ∈ s.removed_files, ∃ n, f = s.locale ++ "/" ++ n) ∧
  (s.missing_in_new = true → s.removed_files = [])

theorem StatsOK_missing (l : String) :
    StatsOK { locale := l, missing_in_new := true } := by
  unfold StatsOK
  exact ⟨rfl, fun f hf => absurd hf (List.not_mem_nil f), fun _ => rfl⟩

theorem StatsOK_newonly (l : String) (k : Nat) :
    StatsOK { locale := l, added := k } := by
  unfold StatsOK
  exact ⟨rfl, fun f hf => absurd hf (List.not_mem_nil f), fun _ => rfl⟩

theorem sync_locale_StatsOK (P : OracleParams) (fs : FS) (ol : DirPath)
    (nl : Option DirPath) : StatsOK (sync_locale P fs ol nl).1 := by
  match nl with
  | none =>
    rw [sync_locale_missing]
    exact StatsOK_missing ol.name
  | some nl =>
    cases hex : pathExistsD fs nl with
    | false =>
      rw [sync_locale_notexists P fs ol hex]
      exact StatsOK_missing ol.name
    | true =>
      rw [sync_locale_stats_eq P fs ol hex]
      unfold StatsOK
      refine ⟨(List.length_map _ _).symm, ?_, ?_⟩
      · intro f hf
        rcases List.mem_map.mp hf with ⟨n, _, rfl⟩
        exact ⟨n, rfl⟩
      · intro hc
        exact absurd hc (by simp)

theorem locStep_StatsOK (P : OracleParams) (nk : List String) {acc : SyncAcc}
    (h : ∀ s ∈ acc.stats_list, StatsOK s) (l : String) :
    ∀ s ∈ (locStep P nk acc l).stats_list, StatsOK s := by
  simp only [locStep]
  intro s hs
  rcases List.mem_append.mp hs with hs | hs
  · exact h s hs
  · rw [List.mem_singleton.mp hs]
    exact sync_locale_StatsOK P _ _ _

theorem newOnlyStep_StatsOK {acc : SyncAcc × Bool}
    (h : ∀ s ∈ acc.1.stats_list, StatsOK s) (l : String) :
    ∀ s ∈ (newOnlyStep acc l).1.stats_list, StatsOK s := by
  cases h2 : acc.2 with
  | false =>
    rw [newOnlyStep_dead h2]
    exact h
  | true =>
    rcases hm : mkdirP acc.1.fs ⟨Side.old, l⟩ with _ | fs1
    · simp only [newOnlyStep, h2, hm]
      exact h
    · simp only [newOnlyStep, h2, hm]
      intro s hs
      rcases List.mem_append.mp hs with hs | hs
      · exact h s hs
      · rw [List.mem_singleton.mp hs]
        exact StatsOK_newonly l _

theorem loc_loop_StatsOK (P : OracleParams) (nk : List String) (locs : List String)
    {acc : SyncAcc} (h : ∀ s ∈ acc.stats_list, StatsOK s) :
    ∀ s ∈ (locs.foldl (locStep P nk) acc).stats_list, StatsOK s := by
  induction locs generalizing acc with
  | nil => exact h
  | cons l locs ih =>
    rw [List.foldl_cons]
    exact ih (locStep_StatsOK P nk h l)

theorem newOnly_loop_StatsOK (locs : List String) {acc : SyncAcc × Bool}
    (h : ∀ s ∈ acc.1.stats_list, StatsOK s) :
    ∀ s ∈ (locs.foldl newOnlyStep acc).1.stats_list, StatsOK s := by
  induction locs generalizing acc with
  | nil => exact h
  | cons l locs ih =>
    rw [List.foldl_cons]
    exact ih (newOnlyStep_StatsOK h l)

theorem sync_all_StatsOK (P : OracleParams) (fs0 : FS) :
    ∀ s ∈ (sync_all P fs0).1.stats_list, StatsOK s := by
  simp only [sync_all]
  refine newOnly_loop_StatsOK _ ?_
  refine loc_loop_StatsOK P _ _ ?_
  intro s hs
  exact absurd hs (List.not_mem_nil s)

/-- Key membership in a locale enumeration, for a well-formed root. -/
theorem mem_keys_iter_locale_dirs {es : Entries} (hnd : nodupKeys es) {M : String} :
    M ∈ (iter_locale_dirs (some es)).map Prod.fst ↔
      (∃ cs, lookupE es M = some (.dir cs)) ∧ is_hidden_path M = false := by
  rw [List.mem_map]
  constructor
  · rintro ⟨p, hp, rfl⟩
    rcases mem_iter_locale_dirs.mp hp with ⟨hmem, hh⟩
    exact ⟨⟨p.2, lookupE_eq_some_of_mem hnd hmem⟩, hh⟩
  · rintro ⟨⟨cs, hl⟩, hh⟩
    exact ⟨(M, cs), mem_iter_locale_dirs.mpr ⟨mem_of_lookupE_eq_some hl, hh⟩, rfl⟩

/-- One alive NEW-only iteration at an unoccupied old-side name: the locale
folder is created and filled with the new side's eligible files. -/
theorem newOnlyStep_alive {a : SyncAcc} {l : String} {ne : Entries}
    (habs : lookupE a.fs.oldRoot l = none)
    (hne : lookupE a.fs.newRoot l = some (.dir ne)) :
    newOnlyStep (a, true) l =
      ({ fs := setOldDir a.fs l (bootDir ne)
         stats_list := a.stats_list ++ [{ locale := l, added := (pngMap ne).length }]
         totals := { a.totals with added := a.totals.added + (pngMap ne).length }
         warnings := a.warnings }, true) := by
  have hm : mkdirP a.fs ⟨Side.old, l⟩ = some (setOldDir a.fs l []) := mkdirP_absent habs
  simp only [newOnlyStep, hm]
  have hdir : (setOldDir a.fs l []).dirAt ⟨Side.new, l⟩ = some ne := by
    unfold FS.dirAt
    simp only [FS.root, setOldDir_newRoot]
    rw [hne]
  rw [hdir]
  have hfold1 : ((iter_png_files (some ne)).foldl (copyAllStep l) (setOldDir a.fs l [], 0)).1 =
      setOldDir a.fs l (bootDir ne) := by
    rw [copyAll_fold_dir (lookupE_setOldDir_self a.fs l []) _ 0, setOldDir_setOldDir]
    rfl
  have hfold2 : ((iter_png_files (some ne)).foldl (copyAllStep l) (setOldDir a.fs l [], 0)).2 =
      (pngMap ne).length := by
    rw [copyAll_fold_count]
    unfold pngMap
    omega
  rw [hfold1, hfold2]

/-- The NEW-only loop, run from an alive state over fresh locales: it stays
alive, touches no other entry, and bootstraps each locale to the new side's
eligible files while recording its `added` count. -/
theorem newOnly_loop_master (locs : List String) (hnd : locs.Nodup) (a : SyncAcc)
    (habsent : ∀ l ∈ locs, lookupE a.fs.oldRoot l = none)
    (hnewdir : ∀ l ∈ locs, ∃ ne, lookupE a.fs.newRoot l = some (.dir ne)) :
    (locs.foldl newOnlyStep (a, true)).2 = true ∧
    (locs.foldl newOnlyStep (a, true)).1.fs.newRoot = a.fs.newRoot ∧
    ekeys (locs.foldl newOnlyStep (a, true)).1.fs.oldRoot = ekeys a.fs.oldRoot ++ locs ∧
    (∀ M, M ∉ locs →
      lookupE (locs.foldl newOnlyStep (a, true)).1.fs.oldRoot M = lookupE a.fs.oldRoot M) ∧
    (∀ s ∈ a.stats_list, s ∈ (locs.foldl newOnlyStep (a, true)).1.stats_list) ∧
    (∀ l ∈ locs, ∀ ne, lookupE a.fs.newRoot l = some (.dir ne) →
      lookupE (locs.foldl newOnlyStep (a, true)).1.fs.oldRoot l = some (.dir (bootDir ne)) ∧
      ({ locale := l, added := (pngMap ne).length } : LocaleStats) ∈
        (locs.foldl newOnlyStep (a, true)).1.stats_list) := by
  induction locs generalizing a with
  | nil =>
    exact ⟨rfl, rfl, (List.append_nil _).symm, fun M _ => rfl, fun s hs => hs,
      fun l hl => absurd hl (List.not_mem_nil l)⟩
  | cons l locs ih =>
    rcases List.nodup_cons.mp hnd with ⟨hlnin, hnd'⟩
    rcases hnewdir l (List.mem_cons_self _ _) with ⟨ne, hne⟩
    have habs : lookupE a.fs.oldRoot l = none := habsent l (List.mem_cons_self _ _)
    rw [List.foldl_cons, newOnlyStep_alive habs hne]
    have habsent' : ∀ l2 ∈ locs,
        lookupE (setOldDir a.fs l (bootDir ne)).oldRoot l2 = none := by
      intro l2 h2
      rw [setOldDir_oldRoot,
        lookupE_setE_ne _ _ (show l2 ≠ l by intro hc; subst hc; exact hlnin h2)]
      exact habsent l2 (List.mem_cons_of_mem _ h2)
    have hnewdir' : ∀ l2 ∈ locs, ∃ ne2,
        lookupE (setOldDir a.fs l (bootDir ne)).newRoot l2 = some (.dir ne2) := by
      intro l2 h2
      rw [setOldDir_newRoot]
      exact hnewdir l2 (List.mem_cons_of_mem _ h2)
    obtain ⟨c1, c2, c3, c4, c5, c6⟩ := ih hnd'
      { fs := setOldDir a.fs l (bootDir ne)
        stats_list := a.stats_list ++ [{ locale := l, added := (pngMap ne).length }]
        totals := { a.totals with added := a.totals.added + (pngMap ne).length }
        warnings := a.warnings }
      habsent' hnewdir'
    refine ⟨c1, c2.trans (setOldDir_newRoot _ _ _), ?_, ?_, ?_, ?_⟩
    · rw [c3, setOldDir_oldRoot, ekeys_setE_of_none _ habs, List.append_assoc,
        List.singleton_append]
    · intro M hM
      have hMl : M ≠ l := fun hc => hM (hc ▸ List.mem_cons_self _ _)
      have hMlocs : M ∉ locs := fun hc => hM (List.mem_cons_of_mem _ hc)
      rw [c4 M hMlocs, setOldDir_oldRoot, lookupE_setE_ne _ _ hMl]
    · intro s hs
      exact c5 s (List.mem_append_left _ hs)
    · intro l2 hl2 ne2 hne2
      rcases List.mem_cons.mp hl2 with rfl | hl2'
      · rw [hne] at hne2
        injection hne2 with hne2
        injection hne2 with hne2
        subst hne2
        refine ⟨?_, ?_⟩
        · rw [c4 l2 hlnin, setOldDir_oldRoot, lookupE_setE_self]
        · exact c5 _ (List.mem_append_right _ (List.mem_singleton.mpr rfl))
      · refine c6 l2 hl2' ne2 ?_
        rw [setOldDir_newRoot]
        exact hne2

/-! ### Assembling `sync_all` -/

/-- `old_locales.keys()`: the locale names found under the old root. -/
def oldKeys (fs0 : FS) : List String := (iter_locale_dirs (some fs0.oldRoot)).map Prod.fst

/-- `new_locales.keys()`: the locale names found under the new root. -/
def newKeys (fs0 : FS) : List String := (iter_locale_dirs (some fs0.newRoot)).map Prod.fst

/-- `sorted(old_locales.keys())`: the iteration order of the first loop. -/
def oldLocs (fs0 : FS) : List String := sortStrs (oldKeys fs0).dedup

/-- `sorted(set(new) - set(old))`: the iteration order of the second loop. -/
def newOnlyLocs (fs0 : FS) : List String := pySortedSetDiff (newKeys fs0) (oldKeys fs0)

theorem sync_all_eq (P : OracleParams) (fs0 : FS) :
    sync_all P fs0 =
      (newOnlyLocs fs0).foldl newOnlyStep
        ((oldLocs fs0).foldl (locStep P (newKeys fs0)) { fs := fs0 }, true) := rfl

theorem mem_oldLocs {fs0 : FS} {M : String} : M ∈ oldLocs fs0 ↔ M ∈ oldKeys fs0 := by
  unfold oldLocs sortStrs
  rw [List.Perm.mem_iff (List.perm_insertionSort _ _), List.mem_dedup]

theorem nodup_oldLocs (fs0 : FS) : (oldLocs fs0).Nodup :=
  sortStrs_nodup (List.nodup_dedup _)

theorem nodup_newOnlyLocs (fs0 : FS) : (newOnlyLocs fs0).Nodup :=
  pySortedSetDiff_nodup _ _

theorem locStep_newRoot (P : OracleParams) (nk : List String) (acc : SyncAcc)
    (l : String) : (locStep P nk acc l).fs.newRoot = acc.fs.newRoot := by
  simp only [locStep]
  exact (sync_locale_OldFrame P acc.fs l _).1

theorem loc_loop_newRoot (P : OracleParams) (nk : List String) (locs : List String)
    (acc : SyncAcc) :
    (locs.foldl (locStep P nk) acc).fs.newRoot = acc.fs.newRoot := by
  induction locs generalizing acc with
  | nil => rfl
  | cons l locs ih =>
    rw [List.foldl_cons]
    exact (ih _).trans (locStep_newRoot P nk acc l)

theorem newOnly_loop_newRoot (locs : List String) (acc : SyncAcc × Bool) :
    (locs.foldl newOnlyStep acc).1.fs.newRoot = acc.1.fs.newRoot := by
  induction locs generalizing acc with
  | nil => rfl
  | cons l locs ih =>
    rw [List.foldl_cons]
    exact (ih _).trans (newOnlyStep_newRoot acc l)

/-- `sync_all` never writes under the new root, whether or not the run
completes. -/
theorem sync_all_newRoot (P : OracleParams) (fs0 : FS) :
    (sync_all P fs0).1.fs.newRoot = fs0.newRoot := by
  rw [sync_all_eq]
  exact (newOnly_loop_newRoot _ _).trans (loc_loop_newRoot P _ _ _)

/-- No new-only locale name is occupied by anything under the old root: the
condition under which the bootstrap loop's `mkdir` calls all succeed. -/
def FreshNewOnly (fs0 : FS) : Prop :=
  ∀ l ∈ newOnlyLocs fs0, lookupE fs0.oldRoot l = none

/-- No old locale folder contains a subdirectory named like an eligible PNG
of the same-named new locale folder. -/
def ClashFree (fs0 : FS) : Prop :=
  ∀ L oe ne, lookupE fs0.oldRoot L = some (.dir oe) →
    lookupE fs0.newRoot L = some (.dir ne) → NoDirClash oe ne

/-- The master description of one completed `sync_all` run over well-formed
roots: the run finishes, the new root is untouched, and every old-root entry
ends as the three-way reconciliation dictates. -/
theorem sync_all_run (P : OracleParams) (fs0 : FS)
    (hndo : nodupKeys fs0.oldRoot) (hndn : nodupKeys fs0.newRoot)
    (hfresh : FreshNewOnly fs0) :
    (sync_all P fs0).2 = true ∧
    nodupKeys (sync_all P fs0).1.fs.oldRoot ∧
    (∀ M, M ∉ oldKeys fs0 → M ∉ newOnlyLocs fs0 →
      lookupE (sync_all P fs0).1.fs.oldRoot M = lookupE fs0.oldRoot M) ∧
    (∀ M ∈ oldKeys fs0, M ∉ newKeys fs0 →
      lookupE (sync_all P fs0).1.fs.oldRoot M = lookupE fs0.oldRoot M) ∧
    (∀ M ∈ oldKeys fs0, ∀ oe ne,
      lookupE fs0.oldRoot M = some (.dir oe) → lookupE fs0.newRoot M = some (.dir ne) →
      lookupE (sync_all P fs0).1.fs.oldRoot M = some (.dir (syncDir P oe ne))) ∧
    (∀ M ∈ newOnlyLocs fs0, ∀ ne, lookupE fs0.newRoot M = some (.dir ne) →
      lookupE (sync_all P fs0).1.fs.oldRoot M = some (.dir (bootDir ne)) ∧
      ({ locale := M, added := (pngMap ne).length } : LocaleStats) ∈
        (sync_all P fs0).1.stats_list) := by
  have hold : ∀ l ∈ oldLocs fs0, ∃ oe,
      lookupE ({ fs := fs0 } : SyncAcc).fs.oldRoot l = some (.dir oe) := by
    intro l hl
    exact ((mem_keys_iter_locale_dirs hndo).mp (mem_oldLocs.mp hl)).1
  have hnew : ∀ l ∈ oldLocs fs0, l ∈ newKeys fs0 → ∃ ne,
      lookupE ({ fs := fs0 } : SyncAcc).fs.newRoot l = some (.dir ne) := by
    intro l _ hk
    exact ((mem_keys_iter_locale_dirs hndn).mp hk).1
  obtain ⟨l1, l2, l3, l4, l5, l6⟩ := loc_loop_master P (newKeys fs0) (oldLocs fs0)
    (nodup_oldLocs fs0) { fs := fs0 } hold hnew
  have habsent : ∀ l ∈ newOnlyLocs fs0,
      lookupE ((oldLocs fs0).foldl (locStep P (newKeys fs0))
        { fs := fs0 }).fs.oldRoot l = none := by
    intro l hl
    have hnot : l ∉ oldLocs fs0 := fun hc =>
      (mem_pySortedSetDiff.mp hl).2 (mem_oldLocs.mp hc)
    rw [l4 l hnot]
    exact hfresh l hl
  have hnewdir : ∀ l ∈ newOnlyLocs fs0, ∃ ne,
      lookupE ((oldLocs fs0).foldl (locStep P (newKeys fs0))
        { fs := fs0 }).fs.newRoot l = some (.dir ne) := by
    intro l hl
    rw [l1]
    exact ((mem_keys_iter_locale_dirs hndn).mp (mem_pySortedSetDiff.mp hl).1).1
  obtain ⟨m1, m2, m3, m4, m5, m6⟩ := newOnly_loop_master (newOnlyLocs fs0)
    (nodup_newOnlyLocs fs0) _ habsent hnewdir
  rw [sync_all_eq]
  refine ⟨m1, ?_, ?_, ?_, ?_, ?_⟩
  · unfold nodupKeys
    rw [m3, l2]
    refine List.Nodup.append hndo (nodup_newOnlyLocs fs0) ?_
    intro x hx hx2
    exact absurd hx (lookupE_none_iff_not_mem_ekeys.mp (hfresh x hx2))
  · intro M hM1 hM2
    rw [m4 M hM2]
    exact l4 M (fun hc => hM1 (mem_oldLocs.mp hc))
  · intro M hM hnk
    have hM2 : M ∉ newOnlyLocs fs0 := fun hc => hnk (mem_pySortedSetDiff.mp hc).1
    rw [m4 M hM2]
    exact l5 M (mem_oldLocs.mpr hM) hnk
  · intro M hM oe ne hoe hne
    have hM2 : M ∉ newOnlyLocs fs0 := fun hc => (mem_pySortedSetDiff.mp hc).2 hM
    have hhid : is_hidden_path M = false := ((mem_keys_iter_locale_dirs hndo).mp hM).2
    have hMk : M ∈ newKeys fs0 := (mem_keys_iter_locale_dirs hndn).mpr ⟨⟨ne, hne⟩, hhid⟩
    rw [m4 M hM2]
    exact l6 M (mem_oldLocs.mpr hM) hMk oe ne hoe hne
  · intro M hM ne hne
    refine m6 M hM ne ?_
    rw [l1]
    exact hne

/-! ### A second run over a converged state -/

/-- A statistics record whose three counters are all zero. -/
def zeroStats (s : LocaleStats) : Prop := s.changed = 0 ∧ s.added = 0 ∧ s.removed = 0

/-- Two-level well-formedness of a root listing: the root and each of its
subdirectory listings bind every name at most once (always true of a real
directory tree). -/
def WFRoot (es : Entries) : Prop :=
  nodupKeys es ∧ ∀ L d, lookupE es L = some (.dir d) → nodupKeys d

theorem pngNames_bootDir {ne : Entries} (hne : nodupKeys ne) :
    pngNames (bootDir ne) = pngNames ne := by
  unfold pngNames pngMap
  rw [iter_png_files_bootDir hne]

theorem locStep_const (P : OracleParams) (nk : List String) {fs : FS} {l : String}
    (h : (sync_locale P fs ⟨Side.old, l⟩
        (if l ∈ nk then some ⟨Side.new, l⟩ else none)).2 = fs)
    (hz : zeroStats (sync_locale P fs ⟨Side.old, l⟩
        (if l ∈ nk then some ⟨Side.new, l⟩ else none)).1)
    (acc : SyncAcc) (hfs : acc.fs = fs) :
    (locStep P nk acc l).fs = fs ∧
    (locStep P nk acc l).totals = acc.totals ∧
    ∀ s ∈ (locStep P nk acc l).stats_list, s ∈ acc.stats_list ∨ zeroStats s := by
  obtain ⟨hc, ha, hr⟩ := hz
  refine ⟨?_, ?_, ?_⟩ <;> simp only [locStep]
  · rw [hfs]
    exact h
  · rw [hfs, hc, ha, hr]
    simp
  · intro s hs
    rcases List.mem_append.mp hs with hs | hs
    · exact Or.inl hs
    · rw [List.mem_singleton.mp hs, hfs]
      exact Or.inr ⟨hc, ha, hr⟩

theorem loc_loop_const (P : OracleParams) (nk : List String) (locs : List String)
    {fs : FS}
    (h : ∀ l ∈ locs, (sync_locale P fs ⟨Side.old, l⟩
        (if l ∈ nk then some ⟨Side.new, l⟩ else none)).2 = fs ∧
      zeroStats (sync_locale P fs ⟨Side.old, l⟩
        (if l ∈ nk then some ⟨Side.new, l⟩ else none)).1)
    (acc : SyncAcc) (hfs : acc.fs = fs) :
    (locs.foldl (locStep P nk) acc).fs = fs ∧
    (locs.foldl (locStep P nk) acc).totals = acc.totals ∧
    ∀ s ∈ (locs.foldl (locStep P nk) acc).stats_list,
      s ∈ acc.stats_list ∨ zeroStats s := by
  induction locs generalizing acc with
  | nil => exact ⟨hfs, rfl, fun s hs => Or.inl hs⟩
  | cons l locs ih =>
    obtain ⟨hstep, hz⟩ := h l (List.mem_cons_self _ _)
    obtain ⟨s1, s2, s3⟩ := locStep_const P nk hstep hz acc hfs
    rw [List.foldl_cons]
    obtain ⟨c1, c2, c3⟩ := ih (fun m hm => h m (List.mem_cons_of_mem _ hm)) _ s1
    refine ⟨c1, c2.trans s2, ?_⟩
    intro s hs
    rcases c3 s hs with hs2 | hz2
    · exact s3 s hs2
    · exact Or.inr hz2

/-- The core of the idempotence argument: a filesystem whose old root agrees
with the reconciliation of a well-formed, clash-free pair re-syncs as a
no-op. -/
theorem second_run_core (P : OracleParams) (fs0 fs1 : FS)
    (hndo : nodupKeys fs0.oldRoot) (hndn : nodupKeys fs0.newRoot)
    (hwfo2 : ∀ L d, lookupE fs0.oldRoot L = some (.dir d) → nodupKeys d)
    (hwfn2 : ∀ L d, lookupE fs0.newRoot L = some (.dir d) → nodupKeys d)
    (hclash : ClashFree fs0)
    (hnr : fs1.newRoot = fs0.newRoot)
    (hnd1 : nodupKeys fs1.oldRoot)
    (r3 : ∀ M, M ∉ oldKeys fs0 → M ∉ newOnlyLocs fs0 →
      lookupE fs1.oldRoot M = lookupE fs0.oldRoot M)
    (r4 : ∀ M ∈ oldKeys fs0, M ∉ newKeys fs0 →
      lookupE fs1.oldRoot M = lookupE fs0.oldRoot M)
    (r5 : ∀ M ∈ oldKeys fs0, ∀ oe ne, lookupE fs0.oldRoot M = some (.dir oe) →
      lookupE fs0.newRoot M = some (.dir ne) →
      lookupE fs1.oldRoot M = some (.dir (syncDir P oe ne)))
    (r6 : ∀ M ∈ newOnlyLocs fs0, ∀ ne, lookupE fs0.newRoot M = some (.dir ne) →
      lookupE fs1.oldRoot M = some (.dir (bootDir ne))) :
    (sync_all P fs1).2 = true ∧
    (sync_all P fs1).1.totals = {} ∧
    ∀ s ∈ (sync_all P fs1).1.stats_list, zeroStats s := by
  have hnewkeys : newKeys fs1 = newKeys fs0 := by
    unfold newKeys
    rw [hnr]
  have hoe1 : ∀ M, M ∈ oldKeys fs1 ↔ (M ∈ oldKeys fs0 ∨ M ∈ newOnlyLocs fs0) := by
    intro M
    constructor
    · intro hM
      rcases (mem_keys_iter_locale_dirs hnd1).mp hM with ⟨⟨cs, hl⟩, hhid⟩
      by_cases h0 : M ∈ oldKeys fs0
      · exact Or.inl h0
      · by_cases h1 : M ∈ newOnlyLocs fs0
        · exact Or.inr h1
        · rw [r3 M h0 h1] at hl
          exact absurd ((mem_keys_iter_locale_dirs hndo).mpr ⟨⟨cs, hl⟩, hhid⟩) h0
    · intro hM
      rcases hM with hM | hM
      · rcases (mem_keys_iter_locale_dirs hndo).mp hM with ⟨⟨oe, hoe⟩, hhid⟩
        by_cases hk : M ∈ newKeys fs0
        · rcases (mem_keys_iter_locale_dirs hndn).mp hk with ⟨⟨ne, hne⟩, _⟩
          exact (mem_keys_iter_locale_dirs hnd1).mpr
            ⟨⟨_, r5 M hM oe ne hoe hne⟩, hhid⟩
        · refine (mem_keys_iter_locale_dirs hnd1).mpr ⟨⟨oe, ?_⟩, hhid⟩
          rw [r4 M hM hk]
          exact hoe
      · rcases (mem_keys_iter_locale_dirs hndn).mp (mem_pySortedSetDiff.mp hM).1
          with ⟨⟨ne, hne⟩, hhid⟩
        exact (mem_keys_iter_locale_dirs hnd1).mpr ⟨⟨_, r6 M hM ne hne⟩, hhid⟩
  have hempty : newOnlyLocs fs1 = [] := by
    unfold newOnlyLocs
    refine pySortedSetDiff_eq_nil ?_
    intro x hx
    rw [hnewkeys] at hx
    by_cases h0 : x ∈ oldKeys fs0
    · exact (hoe1 x).mpr (Or.inl h0)
    · exact (hoe1 x).mpr (Or.inr (mem_pySortedSetDiff.mpr ⟨hx, h0⟩))
  have hsync : ∀ l ∈ oldLocs fs1, (sync_locale P fs1 ⟨Side.old, l⟩
      (if l ∈ newKeys fs1 then some ⟨Side.new, l⟩ else none)).2 = fs1 ∧
      zeroStats (sync_locale P fs1 ⟨Side.old, l⟩
        (if l ∈ newKeys fs1 then some ⟨Side.new, l⟩ else none)).1 := by
    intro l hl
    have hKey : l ∈ oldKeys fs1 := mem_oldLocs.mp hl
    by_cases hk : l ∈ newKeys fs1
    · rw [if_pos hk]
      have hk0 : l ∈ newKeys fs0 := by
        rw [← hnewkeys]
        exact hk
      rcases (mem_keys_iter_locale_dirs hndn).mp hk0 with ⟨⟨ne, hne0⟩, _⟩
      have hne1 : lookupE fs1.newRoot l = some (.dir ne) := by
        rw [hnr]
        exact hne0
      have hnde : nodupKeys ne := hwfn2 l ne hne0
      rcases (hoe1 l).mp hKey with hold0 | hnewonly
      · rcases (mem_keys_iter_locale_dirs hndo).mp hold0 with ⟨⟨oe, hoe0⟩, _⟩
        have hD : lookupE fs1.oldRoot l = some (.dir (syncDir P oe ne)) :=
          r5 l hold0 oe ne hoe0 hne0
        have hndoe : nodupKeys oe := hwfo2 l oe hoe0
        have hcl : NoDirClash oe ne := hclash l oe ne hoe0 hne0
        have hnoop := sync_locale_noop P hD hne1 (syncDir_nodup P hndoe)
          (fun n hn => syncDir_equiv_new P hndoe hnde hcl hn)
          (fun n hn => (syncDir_pngNames_iff P hndoe hnde hcl n).mp hn)
          (fun n hn => (syncDir_pngNames_iff P hndoe hnde hcl n).mpr hn)
        rw [hnoop]
        exact ⟨rfl, rfl, rfl, rfl⟩
      · have hD : lookupE fs1.oldRoot l = some (.dir (bootDir ne)) :=
          r6 l hnewonly ne hne0
        have hnoop := sync_locale_noop P hD hne1 (bootDir_nodup hnde)
          (fun n hn => by
            rcases pngAt_isSome_of_mem hnde hn with ⟨nc, hn2, _⟩
            exact ⟨nc, nc, bootDir_lookup hnde hn2, hn2, same_except_time_refl P nc⟩)
          (fun n hn => by
            rw [pngNames_bootDir hnde] at hn
            exact hn)
          (fun n hn => by
            rw [pngNames_bootDir hnde]
            exact hn)
        rw [hnoop]
        exact ⟨rfl, rfl, rfl, rfl⟩
    · rw [if_neg hk, sync_locale_missing]
      exact ⟨rfl, rfl, rfl, rfl⟩
  obtain ⟨c1, c2, c3⟩ := loc_loop_const P (newKeys fs1) (oldLocs fs1) hsync
    { fs := fs1 } rfl
  rw [sync_all_eq, hempty, List.foldl_nil]
  refine ⟨rfl, c2, ?_⟩
  intro s hs
  rcases c3 s hs with hs2 | hz
  · exact absurd hs2 (List.not_mem_nil s)
  · exact hz

/-! ### Unconditional per-name frame lemmas for the two loops -/

theorem newOnly_loop_lookup_ne (locs : List String) (acc : SyncAcc × Bool) {M : String}
    (h : M ∉ locs) :
    lookupE (locs.foldl newOnlyStep acc).1.fs.oldRoot M = lookupE acc.1.fs.oldRoot M := by
  induction locs generalizing acc with
  | nil => rfl
  | cons l locs ih =>
    rw [List.foldl_cons]
    have hMl : M ≠ l := fun hc => h (hc ▸ List.mem_cons_self _ _)
    exact (ih _ (fun hc => h (List.mem_cons_of_mem _ hc))).trans
      (newOnlyStep_lookup_ne acc hMl)

theorem loc_loop_lookup_frame (P : OracleParams) (nk : List String) (locs : List String)
    {M : String} (h : M ∉ nk) (acc : SyncAcc) :
    lookupE (locs.foldl (locStep P nk) acc).fs.oldRoot M = lookupE acc.fs.oldRoot M := by
  induction locs generalizing acc with
  | nil => rfl
  | cons l locs ih =>
    rw [List.foldl_cons]
    refine (ih _).trans ?_
    by_cases hMl : M = l
    · subst hMl
      simp only [locStep]
      rw [if_neg h, sync_locale_missing]
    · simp only [locStep]
      exact (sync_locale_OldFrame P acc.fs l _).2 M hMl

/-- An old locale listing with no subdirectories clashes with nothing. -/
theorem NoDirClash_of_files {oe : Entries}
    (h : ∀ p ∈ oe, ∃ c, p.2 = FSNode.file c) (ne : Entries) : NoDirClash oe ne := by
  intro n hn cs hc
  rcases h (n, FSNode.dir cs) (mem_of_lookupE_eq_some hc) with ⟨c, hc2⟩
  simp at hc2

/-- A one-folder root whose folder listing is duplicate-free is well-formed. -/
theorem WFRoot_single (n : String) (d : Entries) (hd : nodupKeys d) :
    WFRoot [(n, FSNode.dir d)] := by
  refine ⟨List.nodup_singleton n, ?_⟩
  intro L d2 h
  by_cases he : n = L
  · rw [lookupE_cons, if_pos he] at h
    injection h with h
    injection h with h
    subst h
    exact hd
  · rw [lookupE_cons, if_neg he] at h
    cases h

/-! ### Concrete instances used by the witnesses and counterexamples -/

/-- A 1×1 black image. -/
def unitImg : Image := { w := 1, h := 1, pix := fun _ _ => (0, 0, 0) }

/-- A 2×1 black image (different pixel dimensions from `unitImg`). -/
def wideImg : Image := { w := 2, h := 1, pix := fun _ _ => (0, 0, 0) }

/-- Concrete oracle parameters: the constant-zero hash with zero ignore
fractions. -/
def constParams : OracleParams :=
  { phash := fun _ _ => false, topIgnorePct := 0, leftIgnorePct := 0 }

/-- Two empty roots. -/
def emptyFS : FS := { oldRoot := [], newRoot := [] }

/-- An old locale folder containing a subdirectory named like an eligible
new-side PNG: `l/a.png` is a directory in OLD and a file in NEW. -/
def clashFS : FS :=
  { oldRoot := [("l", .dir [("a.png", .dir [])])]
    newRoot := [("l", .dir [("a.png", .file unitImg)])] }

/-- A NEW-only locale name occupied by a regular file under the old root. -/
def occupiedFS : FS :=
  { oldRoot := [("de", .file unitImg)]
    newRoot := [("de", .dir [("a.png", .file unitImg)])] }

/-- A NEW-only locale over an empty old root. -/
def bootFS : FS :=
  { oldRoot := []
    newRoot := [("de", .dir [("a.png", .file unitImg)])] }

/-- One old locale folder, missing from NEW. -/
def missFS : FS := { oldRoot := [("l", .dir [])], newRoot := [] }

/-- A locale present on both sides: OLD has `l/a.png`, NEW has `l/b.png`. -/
def bothFS : FS :=
  { oldRoot := [("l", .dir [("a.png", .file unitImg)])]
    newRoot := [("l", .dir [("b.png", .file unitImg)])] }

/-! ### The claims -/

/-- Claim C1 counterexample: an old locale folder containing a subdirectory
named like an eligible new PNG (`clashFS`: `l/a.png` is a directory in OLD
and a file in NEW).  The first `sync_all` run completes, yet the second run
still reports `added = 1`: `shutil.copy2` copies the new file *into* the
clashing subdirectory on every run, so the old folder never acquires an
eligible `a.png` file and the second run's totals are not all zero. -/
theorem C1_counterexample :
    (sync_all constParams clashFS).2 = true ∧
    (sync_all constParams ((sync_all constParams clashFS).1.fs)).1.totals.added = 1 := by
  decide

/-- Claim C1 (amended): idempotence of the tree reconciliation.  Amendment:
the claim holds provided the two roots are well-formed listings (`WFRoot`),
no NEW-only locale name is occupied by an existing old-root entry
(`FreshNewOnly`), and no old locale folder contains a subdirectory named
like an eligible PNG of the same-named new locale folder (`ClashFree`);
without the last proviso `C1_counterexample` refutes the original claim.
Under these provisos the first run completes, the second run also completes
and returns totals with `changed = added = removed = 0`, and every
per-locale statistics entry of the second run has all counts zero. -/
theorem C1_idempotence (P : OracleParams) (fs0 : FS)
    (hwfo : WFRoot fs0.oldRoot) (hwfn : WFRoot fs0.newRoot)
    (hfresh : FreshNewOnly fs0) (hclash : ClashFree fs0) :
    (sync_all P fs0).2 = true ∧
    (sync_all P ((sync_all P fs0).1.fs)).2 = true ∧
    (sync_all P ((sync_all P fs0).1.fs)).1.totals = {} ∧
    ∀ s ∈ (sync_all P ((sync_all P fs0).1.fs)).1.stats_list, zeroStats s := by
  obtain ⟨hndo, hwfo2⟩ := hwfo
  obtain ⟨hndn, hwfn2⟩ := hwfn
  obtain ⟨r1, r2, r3, r4, r5, r6⟩ := sync_all_run P fs0 hndo hndn hfresh
  obtain ⟨s1, s2, s3⟩ := second_run_core P fs0 ((sync_all P fs0).1.fs) hndo hndn
    hwfo2 hwfn2 hclash (sync_all_newRoot P fs0) r2 r3 r4 r5
    (fun M hM ne hne => (r6 M hM ne hne).1)
  exact ⟨r1, s1, s2, s3⟩

theorem C1_idempotence_witness :
    (sync_all constParams emptyFS).2 = true ∧
    (sync_all constParams ((sync_all constParams emptyFS).1.fs)).2 = true ∧
    (sync_all constParams ((sync_all constParams emptyFS).1.fs)).1.totals = {} ∧
    ∀ s ∈ (sync_all constParams ((sync_all constParams emptyFS).1.fs)).1.stats_list,
      zeroStats s :=
  C1_idempotence constParams emptyFS
    ⟨by decide, fun L d h => Option.noConfusion h⟩
    ⟨by decide, fun L d h => Option.noConfusion h⟩
    (fun l _ => rfl)
    (fun L oe ne h _ => Option.noConfusion h)

/-- Claim C2: missing-in-new safety.  For every locale folder present under
the old root whose name is absent from the new root's locale map:
`sync_locale` returns the statistics record with `missing_in_new = true` and
all counts zero (the record's other fields are their zero defaults) and
leaves the filesystem untouched; the full `sync_all` run keeps that old
locale folder's entry exactly as it was; and the result's warnings contain
the string naming that locale. -/
theorem C2_missing_in_new_safety (P : OracleParams) (fs0 : FS) {L : String}
    (hL : L ∈ oldKeys fs0) (hLn : L ∉ newKeys fs0) :
    sync_locale P fs0 ⟨Side.old, L⟩ none =
      ({ locale := L, missing_in_new := true }, fs0) ∧
    lookupE (sync_all P fs0).1.fs.oldRoot L = lookupE fs0.oldRoot L ∧
    ("Locale folder missing in NEW (kept as-is): " ++ L) ∈
      (sync_all P fs0).1.warnings := by
  refine ⟨rfl, ?_, ?_⟩
  · have hnd : L ∉ newOnlyLocs fs0 := fun hc => hLn (mem_pySortedSetDiff.mp hc).1
    rw [sync_all_eq]
    exact (newOnly_loop_lookup_ne _ _ hnd).trans (loc_loop_lookup_frame P _ _ hLn _)
  · rw [sync_all_eq, newOnly_loop_warnings]
    exact loc_loop_warning_of_missing P _ (mem_oldLocs.mpr hL) hLn _

theorem C2_missing_in_new_safety_witness :
    sync_locale constParams missFS ⟨Side.old, "l"⟩ none =
      ({ locale := "l", missing_in_new := true }, missFS) ∧
    lookupE (sync_all constParams missFS).1.fs.oldRoot "l" =
      lookupE missFS.oldRoot "l" ∧
    ("Locale folder missing in NEW (kept as-is): " ++ "l") ∈
      (sync_all constParams missFS).1.warnings :=
  C2_missing_in_new_safety constParams missFS (by decide) (by decide)

/-- Claim C3 counterexample: a locale present on both sides whose old folder
contains a subdirectory named like a NEW-only eligible PNG (`clashFS`:
`l/a.png` is a directory in OLD, a file in NEW, so `O = {}` and
`N = {a.png}`).  `sync_locale` counts `added = 1`, but `shutil.copy2`
deposits the new file *inside* the clashing subdirectory instead of creating
the file `a.png` in the locale folder: afterwards the old locale folder's
eligible PNG name set is empty, not `N`'s name set, refuting the claimed
postcondition. -/
theorem C3_counterexample :
    "a.png" ∈ pngNames [("a.png", FSNode.file unitImg)] ∧
    lookupE clashFS.oldRoot "l" = some (.dir [("a.png", FSNode.dir [])]) ∧
    lookupE clashFS.newRoot "l" = some (.dir [("a.png", FSNode.file unitImg)]) ∧
    (sync_locale constParams clashFS ⟨Side.old, "l"⟩ (some ⟨Side.new, "l"⟩)).1.added = 1 ∧
    (iter_png_files ((sync_locale constParams clashFS ⟨Side.old, "l"⟩
        (some ⟨Side.new, "l"⟩)).2.dirAt ⟨Side.old, "l"⟩)).map Prod.fst = [] :=
  ⟨by decide, rfl, rfl, by decide, by decide⟩

/-- Claim C3 (amended): the three-way reconciliation postcondition for a
locale present on both sides, with old eligible-file map `pngMap oe` and new
eligible-file map `pngMap ne`.  Amendment: requires well-formed listings and
that no name of `pngMap ne` is a subdirectory of the old locale folder
(`NoDirClash`) — without that proviso `C3_counterexample` refutes the
original claim's final name-set equality.  Under the provisos: `changed`
counts the common names with non-equivalent contents, `removed` is `|O \ N|`
with `removed_files` recording `"locale/filename"` for each, `added` is
`|N \ O|`; the filesystem change replaces the old locale listing by
`syncDir`, in which every common name holds the old file when equivalent and
the new file otherwise, every OLD-only eligible name is gone, every NEW-only
eligible name holds the new file, and whose eligible name set equals NEW's. -/
theorem C3_reconciliation (P : OracleParams) {fs : FS} {L : String} {oe ne : Entries}
    (hol : lookupE fs.oldRoot L = some (.dir oe))
    (hnl : lookupE fs.newRoot L = some (.dir ne))
    (hoe : nodupKeys oe) (hne : nodupKeys ne) (hcl : NoDirClash oe ne) :
    (sync_locale P fs ⟨Side.old, L⟩ (some ⟨Side.new, L⟩)).1.changed =
      (interNames oe ne).countP (chPred P (pngMap oe) (pngMap ne)) ∧
    (sync_locale P fs ⟨Side.old, L⟩ (some ⟨Side.new, L⟩)).1.removed =
      (remNames oe ne).length ∧
    (sync_locale P fs ⟨Side.old, L⟩ (some ⟨Side.new, L⟩)).1.removed_files =
      (remNames oe ne).map (fun n => L ++ "/" ++ n) ∧
    (sync_locale P fs ⟨Side.old, L⟩ (some ⟨Side.new, L⟩)).1.added =
      (addNames oe ne).length ∧
    (sync_locale P fs ⟨Side.old, L⟩ (some ⟨Side.new, L⟩)).2 =
      setOldDir fs L (syncDir P oe ne) ∧
    (∀ n, n ∈ pngNames (syncDir P oe ne) ↔ n ∈ pngNames ne) ∧
    (∀ n oc nc, List.lookup n (pngMap oe) = some oc →
      List.lookup n (pngMap ne) = some nc →
      lookupE (syncDir P oe ne) n =
        if same_except_time P oc nc then some (.file oc) else some (.file nc)) ∧
    (∀ n, n ∈ pngNames oe → n ∉ pngNames ne → lookupE (syncDir P oe ne) n = none) ∧
    (∀ n nc, n ∉ pngNames oe → List.lookup n (pngMap ne) = some nc →
      lookupE (syncDir P oe ne) n = some (.file nc)) := by
  rw [sync_locale_eq P hol hnl]
  refine ⟨rfl, rfl, rfl, ?_, rfl, syncDir_pngNames_iff P hoe hne hcl, ?_, ?_, ?_⟩
  · show (addNames oe ne).countP (fun n => (List.lookup n (pngMap ne)).isSome) =
      (addNames oe ne).length
    refine List.countP_eq_length.mpr ?_
    intro n hn
    exact list_lookup_isSome_iff.mpr (mem_pySortedSetDiff.mp hn).1
  · intro n oc nc ho hn2
    have hmo : n ∈ pngNames oe := list_lookup_isSome_iff.mp (by rw [ho]; rfl)
    have hmn : n ∈ pngNames ne := list_lookup_isSome_iff.mp (by rw [hn2]; rfl)
    exact syncDir_lookup_inter P hoe hmo hmn ho hn2
  · intro n hmo hmn
    exact syncDir_lookup_rem P hoe hmo hmn
  · intro n nc hmo hn2
    have hmn : n ∈ pngNames ne := list_lookup_isSome_iff.mp (by rw [hn2]; rfl)
    exact syncDir_lookup_add P hcl hmo hmn hn2

theorem C3_reconciliation_witness :
    (sync_locale constParams bothFS ⟨Side.old, "l"⟩ (some ⟨Side.new, "l"⟩)).1.changed =
      (interNames [("a.png", .file unitImg)] [("b.png", .file unitImg)]).countP
        (chPred constParams (pngMap [("a.png", .file unitImg)])
          (pngMap [("b.png", .file unitImg)])) ∧
    (sync_locale constParams bothFS ⟨Side.old, "l"⟩ (some ⟨Side.new, "l"⟩)).1.removed =
      (remNames [("a.png", .file unitImg)] [("b.png", .file unitImg)]).length ∧
    (sync_locale constParams bothFS ⟨Side.old, "l"⟩ (some ⟨Side.new, "l"⟩)).1.removed_files =
      (remNames [("a.png", .file unitImg)] [("b.png", .file unitImg)]).map
        (fun n => "l" ++ "/" ++ n) ∧
    (sync_locale constParams bothFS ⟨Side.old, "l"⟩ (some ⟨Side.new, "l"⟩)).1.added =
      (addNames [("a.png", .file unitImg)] [("b.png", .file unitImg)]).length ∧
    (sync_locale constParams bothFS ⟨Side.old, "l"⟩ (some ⟨Side.new, "l"⟩)).2 =
      setOldDir bothFS "l"
        (syncDir constParams [("a.png", .file unitImg)] [("b.png", .file unitImg)]) ∧
    (∀ n, n ∈ pngNames (syncDir constParams [("a.png", .file unitImg)]
        [("b.png", .file unitImg)]) ↔ n ∈ pngNames [("b.png", .file unitImg)]) ∧
    (∀ n oc nc, List.lookup n (pngMap [("a.png", .file unitImg)]) = some oc →
      List.lookup n (pngMap [("b.png", .file unitImg)]) = some nc →
      lookupE (syncDir constParams [("a.png", .file unitImg)]
          [("b.png", .file unitImg)]) n =
        if same_except_time constParams oc nc then some (.file oc)
        else some (.file nc)) ∧
    (∀ n, n ∈ pngNames [("a.png", .file unitImg)] →
      n ∉ pngNames [("b.png", .file unitImg)] →
      lookupE (syncDir constParams [("a.png", .file unitImg)]
        [("b.png", .file unitImg)]) n = none) ∧
    (∀ n nc, n ∉ pngNames [("a.png", .file unitImg)] →
      List.lookup n (pngMap [("b.png", .file unitImg)]) = some nc →
      lookupE (syncDir constParams [("a.png", .file unitImg)]
        [("b.png", .file unitImg)]) n = some (.file nc)) :=
  C3_reconciliation constParams rfl rfl (by decide) (by decide)
    (NoDirClash_of_files
      (fun p hp => by
        rw [List.mem_singleton.mp hp]
        exact ⟨unitImg, rfl⟩) _)

/-- Claim C4: the image-equivalence oracle contract: when the two pixel
dimensions differ the oracle answers `false` outright (no masking or hashing
is reached: the dimension test guards the rest of the definition), and when
they agree it answers `true` exactly when the Hamming distance of the two
independently masked perceptual hashes is zero — any nonzero distance means
`false`, with no fuzzy threshold. -/
theorem C4_oracle_contract (P : OracleParams) (a b : Image) :
    ((a.w, a.h) ≠ (b.w, b.h) → same_except_time P a b = false) ∧
    ((a.w, a.h) = (b.w, b.h) →
      (same_except_time P a b = true ↔
        hammingDist (masked_phash P a) (masked_phash P b) = 0)) := by
  unfold same_except_time
  constructor
  · intro h
    rw [if_pos h]
  · intro h
    rw [if_neg (not_not_intro h)]
    constructor
    · exact fun hb => eq_of_beq hb
    · intro he
      rw [he]
      rfl

theorem C4_oracle_contract_witness :
    same_except_time constParams wideImg unitImg = false ∧
    (same_except_time constParams unitImg unitImg = true ↔
      hammingDist (masked_phash constParams unitImg)
        (masked_phash constParams unitImg) = 0) :=
  ⟨(C4_oracle_contract constParams wideImg unitImg).1 (by decide),
   (C4_oracle_contract constParams unitImg unitImg).2 rfl⟩

/-- Claim C5: the enumerator contract: a nonexistent root or folder yields
the empty sequence rather than an error; an existing root yields exactly the
non-hidden direct child directories, and an existing folder exactly the
non-hidden direct child regular files whose extension lowercases to ".png",
each sorted ascending by name. -/
theorem C5_enumerators :
    iter_locale_dirs none = [] ∧
    iter_png_files none = [] ∧
    (∀ es : Entries,
      (∀ p, p ∈ iter_locale_dirs (some es) ↔
        (p.1, FSNode.dir p.2) ∈ es ∧ is_hidden_path p.1 = false) ∧
      List.Sorted nameLe (iter_locale_dirs (some es))) ∧
    (∀ es : Entries,
      (∀ p, p ∈ iter_png_files (some es) ↔
        (p.1, FSNode.file p.2) ∈ es ∧ is_hidden_path p.1 = false ∧
          pyLower (pySuffix p.1) = ".png") ∧
      List.Sorted nameLe (iter_png_files (some es))) :=
  ⟨rfl, rfl,
   fun _ => ⟨fun _ => mem_iter_locale_dirs, sortByName_sorted _⟩,
   fun _ => ⟨fun _ => mem_iter_png_files, sortByName_sorted _⟩⟩

/-- Claim C6 counterexample: a NEW-only locale name occupied by a regular
file under the old root (`occupiedFS`: `de` is a file in OLD and a locale
folder in NEW).  The bootstrap `mkdir` raises `FileExistsError`: the run
aborts, no old-side locale folder is created for `de` and no per-locale
statistics entry is recorded, refuting the unconditional bootstrap claim. -/
theorem C6_counterexample :
    "de" ∈ newKeys occupiedFS ∧ "de" ∉ oldKeys occupiedFS ∧
    (sync_all constParams occupiedFS).2 = false ∧
    (sync_all constParams occupiedFS).1.stats_list = [] ∧
    ((sync_all constParams occupiedFS).1.fs.dirAt ⟨Side.old, "de"⟩).isSome = false := by
  decide

/-- Claim C6 (amended): NEW-only locale bootstrap.  Amendment: require
well-formed root listings and that no NEW-only locale name is occupied by an
existing old-root entry (`FreshNewOnly`) — otherwise the `mkdir` raises
`FileExistsError` and the run aborts before (or at) that locale, as
`C6_counterexample` shows.  Under the proviso the run completes, the old
side gains a folder holding exactly the new locale's eligible files under
the same names, and a statistics entry `{locale := L, added := count}` (so
`changed = removed = 0`, `missing_in_new = false`, `removed_files = []`) is
recorded. -/
theorem C6_new_only_bootstrap (P : OracleParams) (fs0 : FS)
    (hndo : nodupKeys fs0.oldRoot) (hndn : nodupKeys fs0.newRoot)
    (hfresh : FreshNewOnly fs0)
    {L : String} (hL : L ∈ newKeys fs0) (hLo : L ∉ oldKeys fs0)
    {ne : Entries} (hne : lookupE fs0.newRoot L = some (.dir ne))
    (hnde : nodupKeys ne) :
    (sync_all P fs0).2 = true ∧
    lookupE (sync_all P fs0).1.fs.oldRoot L =
      some (.dir ((pngMap ne).map (fun e => (e.1, FSNode.file e.2)))) ∧
    ({ locale := L, added := (pngMap ne).length } : LocaleStats) ∈
      (sync_all P fs0).1.stats_list := by
  have hmem : L ∈ newOnlyLocs fs0 := mem_pySortedSetDiff.mpr ⟨hL, hLo⟩
  obtain ⟨r1, _, _, _, _, r6⟩ := sync_all_run P fs0 hndo hndn hfresh
  obtain ⟨h1, h2⟩ := r6 L hmem ne hne
  refine ⟨r1, ?_, h2⟩
  rw [h1, bootDir_eq hnde]

theorem C6_new_only_bootstrap_witness :
    (sync_all constParams bootFS).2 = true ∧
    lookupE (sync_all constParams bootFS).1.fs.oldRoot "de" =
      some (.dir ((pngMap [("a.png", FSNode.file unitImg)]).map
        (fun e => (e.1, FSNode.file e.2)))) ∧
    ({ locale := "de", added := (pngMap [("a.png", FSNode.file unitImg)]).length } :
        LocaleStats) ∈ (sync_all constParams bootFS).1.stats_list :=
  C6_new_only_bootstrap constParams bootFS (by decide) (by decide) (fun _ _ => rfl)
    (by decide) (by decide) rfl (by decide)

/-- Claim C7: the totals of a completed `sync_all` run are exactly the
componentwise sums of the per-locale statistics entries — no contribution
reaches the totals except through a recorded entry.  (The invariant in fact
holds of every run, completed or not.) -/
theorem C7_totals_sums (P : OracleParams) (fs0 : FS)
    (_hdone : (sync_all P fs0).2 = true) :
    (sync_all P fs0).1.totals.changed =
      ((sync_all P fs0).1.stats_list.map LocaleStats.changed).sum ∧
    (sync_all P fs0).1.totals.added =
      ((sync_all P fs0).1.stats_list.map LocaleStats.added).sum ∧
    (sync_all P fs0).1.totals.removed =
      ((sync_all P fs0).1.stats_list.map LocaleStats.removed).sum := by
  have h := sync_all_TotalsOK P fs0
  unfold TotalsOK at h
  rw [h]
  exact ⟨rfl, rfl, rfl⟩

theorem C7_totals_sums_witness :
    (sync_all constParams emptyFS).1.totals.changed =
      ((sync_all constParams emptyFS).1.stats_list.map LocaleStats.changed).sum ∧
    (sync_all constParams emptyFS).1.totals.added =
      ((sync_all constParams emptyFS).1.stats_list.map LocaleStats.added).sum ∧
    (sync_all constParams emptyFS).1.totals.removed =
      ((sync_all constParams emptyFS).1.stats_list.map LocaleStats.removed).sum :=
  C7_totals_sums constParams emptyFS (by decide)

/-- Claim C8: missing-file-at-delete tolerance: when the path does not exist
at deletion time (`unlink` raises `FileNotFoundError`), `remove_file`
returns normally with the filesystem unchanged; and the removed-category
step always counts the name as removed and records `"locale/filename"`,
whether or not the deletion found the file. -/
theorem C8_remove_missing_tolerated (fs : FS) (p : FPath)
    (h : unlinkE fs p = .error ()) :
    remove_file fs p = fs ∧
    ∀ (L n : String) (acc : LocaleStats × FS),
      (removedStep ⟨Side.old, L⟩ acc n).1.removed = acc.1.removed + 1 ∧
      (removedStep ⟨Side.old, L⟩ acc n).1.removed_files =
        acc.1.removed_files ++ [L ++ "/" ++ n] := by
  refine ⟨?_, fun L n acc => ⟨rfl, rfl⟩⟩
  unfold remove_file
  rw [h]

theorem C8_remove_missing_tolerated_witness :
    remove_file emptyFS ⟨⟨Side.old, "l"⟩, "a.png"⟩ = emptyFS ∧
    ∀ (L n : String) (acc : LocaleStats × FS),
      (removedStep ⟨Side.old, L⟩ acc n).1.removed = acc.1.removed + 1 ∧
      (removedStep ⟨Side.old, L⟩ acc n).1.removed_files =
        acc.1.removed_files ++ [L ++ "/" ++ n] :=
  C8_remove_missing_tolerated emptyFS ⟨⟨Side.old, "l"⟩, "a.png"⟩ rfl

/-- Claim C9: the new tree is read-only: `sync_all` returns the new root's
listing unchanged, whether or not the run completes — every filesystem
mutation of the script (copies, deletions, directory creations) acts on the
old root's listing only. -/
theorem C9_new_tree_read_only (P : OracleParams) (fs0 : FS) :
    (sync_all P fs0).1.fs.newRoot = fs0.newRoot :=
  sync_all_newRoot P fs0

/-- Claim C10: the implicit stats-consistency invariant: every statistics
record produced by `sync_locale`, and every record in a `sync_all` result,
satisfies `removed = removed_files.length`, every recorded path has the form
`"locale/filename"` for the record's own locale field, and a missing-in-new
record has `removed_files = []`; moreover every record the NEW-only loop
adds has `removed_files = []` (and `removed = 0`). -/
theorem C10_stats_consistency (P : OracleParams) :
    (∀ (fs : FS) (ol : DirPath) (nl : Option DirPath),
      StatsOK (sync_locale P fs ol nl).1) ∧
    (∀ fs0 : FS, ∀ s ∈ (sync_all P fs0).1.stats_list, StatsOK s) ∧
    (∀ (acc : SyncAcc × Bool) (l : String),
      ∀ s ∈ (newOnlyStep acc l).1.stats_list,
        s ∈ acc.1.stats_list ∨ (s.removed_files = [] ∧ s.removed = 0)) := by
  refine ⟨fun fs ol nl => sync_locale_StatsOK P fs ol nl,
    fun fs0 s hs => sync_all_StatsOK P fs0 s hs, ?_⟩
  intro acc l s hs
  cases h2 : acc.2 with
  | false =>
    rw [newOnlyStep_dead h2] at hs
    exact Or.inl hs
  | true =>
    rcases hm : mkdirP acc.1.fs ⟨Side.old, l⟩ with _ | fs1
    · simp only [newOnlyStep, h2, hm] at hs
      exact Or.inl hs
    · simp only [newOnlyStep, h2, hm] at hs
      rcases List.mem_append.mp hs with hs | hs
      · exact Or.inl hs
      · rw [List.mem_singleton.mp hs]
        exact Or.inr ⟨rfl, rfl⟩

theorem C10_stats_consistency_witness :
    StatsOK (sync_locale constParams emptyFS ⟨Side.old, "l"⟩ none).1 :=
  (C10_stats_consistency constParams).1 emptyFS ⟨Side.old, "l"⟩ none

end Sync
